import Mathlib

/-!
# Verification of `toposort` (Kahn's algorithm over an edge list)

Shallow embedding of `toposort.go`:

* a vertex is Go's `interface{}`; it is modelled as `Option α` over any type `α`
  with decidable equality, `none` being `nil` (values that Go cannot compare or
  hash, for which the map operations panic, and floating-point NaN, which is not
  equal to itself, are outside the model);
* `Edge` is `[2]interface{}`, a pair of vertices;
* a Go `map` is an association list with unique keys (`lookup`, `store`); the
  order in which a `range` over a map yields its entries is not defined by the
  language, so every such loop takes its order from a `RangeOrder`, an arbitrary
  permutation of the entries, one per loop (`MapOrders`);
* the `for len(next) > 0` loop is `sortLoop`, structurally recursive on a
  budget of iterations; `Toposort` runs it with one iteration per key of the
  in-degree table and yields `none` if the budget were ever exhausted;
* the in-degree counts are `Int`; they are bounded by the number of edges, so the
  64-bit `int` of Go does not overflow;
* the two errors are the constructors of `TopoError`; the cycle error carries
  the list of vertices that the message prints.
-/

namespace GoToposort

/-! ## Data model -/

/-- Go's `interface{}` vertex: `none` is `nil`. -/
abbrev Vertex (α : Type) := Option α

/-- `type Edge [2]interface{}`. -/
abbrev Edge (α : Type) := Vertex α × Vertex α

/-- A Go map as an association list; keys are kept unique by `store`. -/
abbrev GoMap (κ : Type) (β : Type) := List (κ × β)

/-- The comma-ok read `v, ok := m[k]`. -/
def lookup {κ β : Type} [DecidableEq κ] : GoMap κ β → κ → Option β
  | [], _ => none
  | (k', b) :: m, k => if k' = k then some b else lookup m k

/-- The assignment `m[k] = b`: overwrite an existing entry, otherwise add one. -/
def store {κ β : Type} [DecidableEq κ] : GoMap κ β → κ → β → GoMap κ β
  | [], k, b => [(k, b)]
  | (k', b') :: m, k, b => if k' = k then (k, b) :: m else (k', b') :: store m k b

/-- The keys of a map, in the order of the representation. -/
def keys {κ β : Type} (m : GoMap κ β) : List κ := m.map Prod.fst

/-- The index expression `g[u]` on the graph: `nil` (no destinations) for a missing key. -/
def adjOf {α : Type} [DecidableEq α] (g : GoMap (Vertex α) (List (Vertex α)))
    (u : Vertex α) : List (Vertex α) :=
  (lookup g u).getD []

/-- The index expression `inDegree[v]`: the zero value `0` for a missing key. -/
def degOf {α : Type} [DecidableEq α] (d : GoMap (Vertex α) Int) (v : Vertex α) : Int :=
  (lookup d v).getD 0

/-- The order in which one `range` loop over a map yields the entries. -/
structure RangeOrder (β : Type) where
  /-- The entries as the loop visits them. -/
  iter : List β → List β
  /-- Every entry is visited exactly once. -/
  perm : ∀ l, (iter l).Perm l

/-- The iteration orders of the four `range` loops over maps in `Toposort`. -/
structure MapOrders (α : Type) where
  /-- Line 32, `for n := range g`. -/
  rangeInit : RangeOrder (Vertex α × List (Vertex α))
  /-- Line 37, `for _, adjacent := range g`. -/
  rangeCount : RangeOrder (Vertex α × List (Vertex α))
  /-- Line 47, `for u, deg := range inDegree`. -/
  rangeReady : RangeOrder (Vertex α × Int)
  /-- Line 76, `for u, deg := range inDegree`. -/
  rangeCycle : RangeOrder (Vertex α × Int)

/-- Iteration in the order of the representation. -/
def RangeOrder.id (β : Type) : RangeOrder β := ⟨fun l => l, fun l => List.Perm.refl l⟩

/-- Iteration against the order of the representation. -/
def RangeOrder.rev (β : Type) : RangeOrder β := ⟨List.reverse, fun l => List.reverse_perm l⟩

/-- All four loops in the order of the representation. -/
def MapOrders.id (α : Type) : MapOrders α :=
  ⟨RangeOrder.id _, RangeOrder.id _, RangeOrder.id _, RangeOrder.id _⟩

/-- All four loops against the order of the representation. -/
def MapOrders.rev (α : Type) : MapOrders α :=
  ⟨RangeOrder.rev _, RangeOrder.rev _, RangeOrder.rev _, RangeOrder.rev _⟩

/-- The two errors of the package. -/
inductive TopoError (α : Type) where
  /-- `errors.New("nodes in edge cannot be the same")`. -/
  | sameNodes : TopoError α
  /-- `fmt.Errorf("graph contains cycle in nodes %s", cycleNodes)`. -/
  | cycle (cycleNodes : List (Vertex α)) : TopoError α
  deriving DecidableEq, Repr

/-! ## `makeGraph` -/

/-- The body of the loop of `makeGraph` from edge `i` on, `graph` being the map so far. -/
def makeGraphLoop {α : Type} [DecidableEq α] :
    List (Edge α) → GoMap (Vertex α) (List (Vertex α)) →
      Except (TopoError α) (GoMap (Vertex α) (List (Vertex α)))
  | [], graph => .ok graph
  | (u, v) :: rest, graph =>
    if u = v then .error .sameNodes
    else if u = none then
      makeGraphLoop rest (if (lookup graph v).isSome then graph else store graph v [])
    else if v = none then
      makeGraphLoop rest (if (lookup graph u).isSome then graph else store graph u [])
    else
      makeGraphLoop rest (store graph u (adjOf graph u ++ [v]))

/-- The function `makeGraph`: a map of source node to destination nodes. -/
def makeGraph {α : Type} [DecidableEq α] (edges : List (Edge α)) :
    Except (TopoError α) (GoMap (Vertex α) (List (Vertex α))) :=
  makeGraphLoop edges []

/-! ## `Toposort` -/

/-- Lines 31-34: every key of `g` gets the count 0, in the order `ks`. -/
def initDegree {α : Type} [DecidableEq α] (ks : List (Vertex α)) : GoMap (Vertex α) Int :=
  ks.foldl (fun d n => store d n 0) []

/-- Lines 39-42: `inDegree[v]++` for each `v` of one adjacency list. -/
def countAdjacent {α : Type} [DecidableEq α] (d : GoMap (Vertex α) Int)
    (adjacent : List (Vertex α)) : GoMap (Vertex α) Int :=
  adjacent.foldl (fun d v => store d v (degOf d v + 1)) d

/-- Lines 37-43: the adjacency lists of `g`, in the order given. -/
def countDegree {α : Type} [DecidableEq α] (d : GoMap (Vertex α) Int)
    (entries : List (Vertex α × List (Vertex α))) : GoMap (Vertex α) Int :=
  entries.foldl (fun d e => countAdjacent d e.2) d

/-- Lines 46-51: the vertices whose count is 0, in the order the entries are visited. -/
def readyList {α : Type} (entries : List (Vertex α × Int)) : List (Vertex α) :=
  (entries.filter (fun e => e.2 = 0)).map Prod.fst

/-- The variables of the sort loop. -/
structure SortState (α : Type) where
  /-- The stack `next` of ready vertices; the top is the last element. -/
  next : List (Vertex α)
  /-- The output `sorted` so far. -/
  sorted : List (Vertex α)
  /-- The table `inDegree`. -/
  inDegree : GoMap (Vertex α) Int

/-- Lines 63-70: for each `v` adjacent to the vertex just sorted, `inDegree[v]--`, and
`v` is appended to `next` when its count has become 0. -/
def relax {α : Type} [DecidableEq α] :
    List (Vertex α) → List (Vertex α) → GoMap (Vertex α) Int →
      List (Vertex α) × GoMap (Vertex α) Int
  | [], next, d => (next, d)
  | v :: rest, next, d =>
    let d1 := store d v (degOf d v - 1)
    if degOf d1 v = 0 then relax rest (next ++ [v]) d1 else relax rest next d1

/-- Lines 54-71: `for len(next) > 0`, with a budget of iterations; `none` when the
budget is used up while `next` is still non-empty. -/
def sortLoop {α : Type} [DecidableEq α] (g : GoMap (Vertex α) (List (Vertex α))) :
    Nat → SortState α → Option (SortState α)
  | 0, st => if st.next = [] then some st else none
  | budget + 1, st =>
    match st.next.getLast? with
    | none => some st
    | some u =>
      let r := relax (adjOf g u) st.next.dropLast st.inDegree
      sortLoop g budget ⟨r.1, st.sorted ++ [u], r.2⟩

/-- Lines 75-80: the vertices whose count is not 0, in the order the entries are visited. -/
def cycleNodes {α : Type} (entries : List (Vertex α × Int)) : List (Vertex α) :=
  (entries.filter (fun e => e.2 ≠ 0)).map Prod.fst

/-- The table `inDegree` as it stands before the sort loop (lines 31-43). -/
def inDegreeTable {α : Type} [DecidableEq α] (o : MapOrders α)
    (g : GoMap (Vertex α) (List (Vertex α))) : GoMap (Vertex α) Int :=
  countDegree (initDegree (keys (o.rangeInit.iter g))) (o.rangeCount.iter g)

/-- The state in which the sort loop is entered. -/
def initState {α : Type} [DecidableEq α] (o : MapOrders α)
    (g : GoMap (Vertex α) (List (Vertex α))) : SortState α :=
  ⟨readyList (o.rangeReady.iter (inDegreeTable o g)), [], inDegreeTable o g⟩

/-- The function `Toposort`. The result is `none` only if the sort loop were not to
finish within one iteration per key of `inDegree`. -/
def Toposort {α : Type} [DecidableEq α] (o : MapOrders α) (edges : List (Edge α)) :
    Option (Except (TopoError α) (List (Vertex α))) :=
  match makeGraph edges with
  | .error err => some (.error err)
  | .ok g =>
    match sortLoop g (keys (inDegreeTable o g)).length (initState o g) with
    | none => none
    | some st =>
      if st.sorted.length < g.length then
        some (.error (.cycle (cycleNodes (o.rangeCycle.iter st.inDegree))))
      else some (.ok st.sorted)

/-! ## `ToposortR` -/

/-- One exchange `sorted[i], sorted[opp] = sorted[opp], sorted[i]`. -/
def swapAt {β : Type} (s : List β) (i opp : Nat) : List β :=
  match s[i]?, s[opp]? with
  | some a, some b => (s.set i b).set opp a
  | _, _ => s

/-- Lines 96-99: the loop `for i := len(sorted)/2 - 1; i >= 0; i--`, entered with
`n = i + 1` iterations to go. -/
def reverseLoop {β : Type} : Nat → List β → List β
  | 0, s => s
  | i + 1, s => reverseLoop i (swapAt s i (s.length - 1 - i))

/-- The function `ToposortR`. -/
def ToposortR {α : Type} [DecidableEq α] (o : MapOrders α) (edges : List (Edge α)) :
    Option (Except (TopoError α) (List (Vertex α))) :=
  match Toposort o edges with
  | none => none
  | some (.error err) => some (.error err)
  | some (.ok sorted) => some (.ok (reverseLoop (sorted.length / 2) sorted))

/-! ## Notions used in the statements -/

section SpecDefs
variable {α : Type} [DecidableEq α]

/-- The directed graph of an edge list: `u → v` when `{u, v}` is an edge of the list
with both sides non-nil. -/
def EdgeRel (edges : List (Edge α)) (u v : Vertex α) : Prop :=
  (u, v) ∈ edges ∧ u ≠ none ∧ v ≠ none

/-- The directed graph of the edge list has a cycle. -/
def HasCycle (edges : List (Edge α)) : Prop :=
  ∃ v, Relation.TransGen (EdgeRel edges) v v

/-- The vertex lies on a cycle or is reachable from a vertex on a cycle. -/
def Blocked (edges : List (Edge α)) (v : Vertex α) : Prop :=
  ∃ c, Relation.TransGen (EdgeRel edges) c c ∧ Relation.ReflTransGen (EdgeRel edges) c v

/-- A non-nil vertex referenced anywhere in the edge list. -/
def IsVertex (edges : List (Edge α)) (v : Vertex α) : Prop :=
  v ≠ none ∧ ∃ e ∈ edges, e.1 = v ∨ e.2 = v

/-- A non-nil vertex that is the first side of an edge or the non-nil side of a
one-nil edge. -/
def IsSource (edges : List (Edge α)) (v : Vertex α) : Prop :=
  v ≠ none ∧ ∃ e ∈ edges, e.1 = v ∨ (e.1 = none ∧ e.2 = v)

/-- The second sides of the edges from `u` to a non-nil vertex, in input order. -/
def dests (edges : List (Edge α)) (u : Vertex α) : List (Vertex α) :=
  (edges.filter (fun e => e.1 = u ∧ e.2 ≠ none)).map Prod.snd

/-- The number of entries of the adjacency lists of `g` that are `v`, over the keys
outside `S`: the in-degree of `v` once the vertices of `S` are removed. -/
def residualDeg (g : GoMap (Vertex α) (List (Vertex α))) (S : List (Vertex α))
    (v : Vertex α) : Nat :=
  ((g.filter (fun e => e.1 ∉ S)).map (fun e => e.2.count v)).sum

/-- What the sort loop needs of the graph and of the key set `U` of the table. -/
structure GraphOK (g : GoMap (Vertex α) (List (Vertex α))) (U : List (Vertex α)) : Prop where
  nodupKeys : (keys g).Nodup
  keysIn : ∀ u, u ∈ keys g → u ∈ U
  destsIn : ∀ u v, v ∈ adjOf g u → v ∈ U

/-- The invariant of the inner loop over the adjacency list of the vertex just
sorted: `done` is the part of the list already visited, `R` the counts on entry. -/
structure RelaxInv (U S : List (Vertex α)) (R : Vertex α → Nat) (done next : List (Vertex α))
    (d : GoMap (Vertex α) Int) : Prop where
  keysEq : keys d = U
  deg : ∀ w, degOf d w = (R w : Int) - (done.count w : Int)
  nodup : (S ++ next).Nodup
  zero : ∀ w, w ∈ S ++ next ↔ w ∈ U ∧ degOf d w = 0

/-- The invariant of the sort loop. -/
structure LoopInv (g : GoMap (Vertex α) (List (Vertex α))) (U : List (Vertex α))
    (st : SortState α) : Prop where
  keysEq : keys st.inDegree = U
  nodup : (st.sorted ++ st.next).Nodup
  deg : ∀ v, degOf st.inDegree v = (residualDeg g st.sorted v : Int)
  zero : ∀ v, v ∈ st.sorted ++ st.next ↔ v ∈ U ∧ degOf st.inDegree v = 0
  closed : ∀ u v, v ∈ adjOf g u → v ∈ st.sorted → u ∈ st.sorted
  order : ∀ u v, v ∈ adjOf g u → ∀ i j : Nat,
    st.sorted[i]? = some u → st.sorted[j]? = some v → i < j

/-- What a list returned by the sort loop satisfies, in terms of the edge list. -/
structure SortedSpec (edges : List (Edge α)) (l : List (Vertex α)) : Prop where
  nodup : l.Nodup
  mem : ∀ v, v ∈ l ↔ IsVertex edges v ∧ ¬ Blocked edges v
  closed : ∀ u v, EdgeRel edges u v → v ∈ l → u ∈ l
  order : ∀ u v, EdgeRel edges u v → ∀ i j : Nat, l[i]? = some u → l[j]? = some v → i < j

/-- The edge list with one more copy of `e`, put in front of position `p`. -/
def insertAt (edges : List (Edge α)) (p : Nat) (e : Edge α) : List (Edge α) :=
  edges.take p ++ e :: edges.drop p

/-- The edge list with further copies of `e`, put in one after the other at the
positions `ps`. -/
def insertCopies (e : Edge α) : List Nat → List (Edge α) → List (Edge α)
  | [], edges => edges
  | p :: ps, edges => insertCopies e ps (insertAt edges p e)

/-- The star-shaped edge list `{A, c1}, ..., {A, cn}`. -/
def starEdges (A : α) (cs : List α) : List (Edge α) :=
  cs.map (fun c => (some A, some c))

/-- One iteration of the sort loop (lines 55-70); `none` when `len(next) > 0` fails. -/
def sortStep (g : GoMap (Vertex α) (List (Vertex α))) (st : SortState α) :
    Option (SortState α) :=
  match st.next.getLast? with
  | none => none
  | some u =>
    let r := relax (adjOf g u) st.next.dropLast st.inDegree
    some ⟨r.1, st.sorted ++ [u], r.2⟩

/-- The state of the sort loop after `k` iterations, or on exit if that comes first. -/
def sortIter (g : GoMap (Vertex α) (List (Vertex α))) : Nat → SortState α → SortState α
  | 0, st => st
  | k + 1, st =>
    match sortStep g st with
    | none => st
    | some st1 => sortIter g k st1

end SpecDefs

/-! ## Association-list maps -/

section MapLemmas
variable {κ β : Type} [DecidableEq κ]

theorem lookup_store_same (m : GoMap κ β) (k : κ) (b : β) :
    lookup (store m k b) k = some b := by
  induction m with
  | nil => simp [store, lookup]
  | cons e m ih =>
    obtain ⟨k', b'⟩ := e
    by_cases h : k' = k
    · simp [store, lookup, h]
    · simp [store, lookup, h, ih]

theorem lookup_store_ne (m : GoMap κ β) {k x : κ} (b : β) (h : x ≠ k) :
    lookup (store m k b) x = lookup m x := by
  induction m with
  | nil => simp [store, lookup, Ne.symm h]
  | cons e m ih =>
    obtain ⟨k', b'⟩ := e
    by_cases h1 : k' = k
    · subst h1
      simp [store, lookup, Ne.symm h]
    · by_cases h2 : k' = x
      · subst h2
        simp [store, lookup, h1]
      · simp [store, lookup, h1, h2, ih]

theorem lookup_eq_none_iff (m : GoMap κ β) (k : κ) :
    lookup m k = none ↔ k ∉ keys m := by
  induction m with
  | nil => simp [lookup, keys]
  | cons e m ih =>
    obtain ⟨k', b'⟩ := e
    by_cases h : k' = k
    · simp [lookup, keys, h]
    · have hk : ¬ k = k' := fun h' => h h'.symm
      simpa [lookup, keys, h, hk] using ih

theorem lookup_isSome_iff (m : GoMap κ β) (k : κ) :
    (lookup m k).isSome = true ↔ k ∈ keys m := by
  cases h : lookup m k with
  | none => simpa using (lookup_eq_none_iff m k).1 h
  | some b =>
    have h1 : ¬ lookup m k = none := by simp [h]
    have h2 : k ∈ keys m := by
      by_contra hk
      exact h1 ((lookup_eq_none_iff m k).2 hk)
    simpa using h2

theorem mem_keys_store (m : GoMap κ β) (k x : κ) (b : β) :
    x ∈ keys (store m k b) ↔ x = k ∨ x ∈ keys m := by
  induction m with
  | nil => simp [store, keys]
  | cons e m ih =>
    obtain ⟨k', b'⟩ := e
    by_cases h : k' = k
    · subst h
      simp [store, keys]
    · simp only [keys] at ih
      simp [store, keys, h, ih]
      tauto

theorem keys_store_of_mem (m : GoMap κ β) {k : κ} (b : β) (h : k ∈ keys m) :
    keys (store m k b) = keys m := by
  induction m with
  | nil => simp [keys] at h
  | cons e m ih =>
    obtain ⟨k', b'⟩ := e
    by_cases h1 : k' = k
    · simp [store, keys, h1]
    · have : k ∈ keys m := by
        simp only [keys, List.map_cons, List.mem_cons] at h
        rcases h with h | h
        · exact absurd h.symm h1
        · exact h
      simp only [keys] at ih
      simp [store, keys, h1, ih this]

theorem nodup_keys_store (m : GoMap κ β) (k : κ) (b : β) (h : (keys m).Nodup) :
    (keys (store m k b)).Nodup := by
  induction m with
  | nil => simp [store, keys]
  | cons e m ih =>
    obtain ⟨k', b'⟩ := e
    by_cases h1 : k' = k
    · subst h1
      simpa [store, keys] using h
    · simp only [keys, List.map_cons, List.nodup_cons] at h
      have hm := mem_keys_store m k k' b
      simp only [keys] at ih hm
      simp only [store, h1, if_false, keys, List.map_cons, List.nodup_cons]
      refine ⟨?_, ih h.2⟩
      rw [hm]
      rintro (h2 | h2)
      · exact h1 h2
      · exact h.1 h2

theorem length_store_of_mem (m : GoMap κ β) {k : κ} (b : β) (h : k ∈ keys m) :
    (store m k b).length = m.length := by
  have := congrArg List.length (keys_store_of_mem m b h)
  simpa [keys] using this

end MapLemmas

section DegLemmas
variable {α : Type} [DecidableEq α]

theorem degOf_store_same (d : GoMap (Vertex α) Int) (v : Vertex α) (n : Int) :
    degOf (store d v n) v = n := by
  simp [degOf, lookup_store_same]

theorem degOf_store_ne (d : GoMap (Vertex α) Int) {v w : Vertex α} (n : Int) (h : w ≠ v) :
    degOf (store d v n) w = degOf d w := by
  simp [degOf, lookup_store_ne d n h]

theorem degOf_of_not_mem (d : GoMap (Vertex α) Int) {v : Vertex α} (h : v ∉ keys d) :
    degOf d v = 0 := by
  simp [degOf, (lookup_eq_none_iff d v).2 h]

theorem adjOf_of_not_mem (g : GoMap (Vertex α) (List (Vertex α))) {u : Vertex α}
    (h : u ∉ keys g) : adjOf g u = [] := by
  simp [adjOf, (lookup_eq_none_iff g u).2 h]

theorem adjOf_store_same (g : GoMap (Vertex α) (List (Vertex α))) (u : Vertex α)
    (a : List (Vertex α)) : adjOf (store g u a) u = a := by
  simp [adjOf, lookup_store_same]

theorem adjOf_store_ne (g : GoMap (Vertex α) (List (Vertex α))) {u x : Vertex α}
    (a : List (Vertex α)) (h : x ≠ u) : adjOf (store g u a) x = adjOf g x := by
  simp [adjOf, lookup_store_ne g a h]

end DegLemmas

section Residual
variable {α : Type} [DecidableEq α]

theorem adjOf_of_mem (g : GoMap (Vertex α) (List (Vertex α))) (h : (keys g).Nodup)
    {k : Vertex α} {a : List (Vertex α)} (hm : (k, a) ∈ g) : adjOf g k = a := by
  induction g with
  | nil => simp at hm
  | cons e g ih =>
    obtain ⟨k', a'⟩ := e
    simp only [keys, List.map_cons, List.nodup_cons] at h
    rcases List.mem_cons.1 hm with h1 | h1
    · cases h1
      simp [adjOf, lookup]
    · have hk : k ∈ keys g := List.mem_map.2 ⟨(k, a), h1, rfl⟩
      have hne : k' ≠ k := fun h2 => h.1 (h2 ▸ hk)
      have := ih h.2 h1
      simpa [adjOf, lookup, hne] using this

theorem mem_of_mem_keys (g : GoMap (Vertex α) (List (Vertex α))) {k : Vertex α}
    (hk : k ∈ keys g) : (k, adjOf g k) ∈ g := by
  induction g with
  | nil => simp [keys] at hk
  | cons e g ih =>
    obtain ⟨k', a'⟩ := e
    by_cases h : k' = k
    · subst h
      simp [adjOf, lookup]
    · simp only [keys, List.map_cons, List.mem_cons] at hk
      rcases hk with hk | hk
      · exact absurd hk.symm h
      · have := ih hk
        simp only [adjOf, lookup, h, if_false]
        exact List.mem_cons_of_mem _ this

theorem residualDeg_move (g : GoMap (Vertex α) (List (Vertex α))) (h : (keys g).Nodup)
    (S : List (Vertex α)) {u : Vertex α} (hu : u ∉ S) (v : Vertex α) :
    residualDeg g S v = residualDeg g (S ++ [u]) v + (adjOf g u).count v := by
  induction g with
  | nil => simp [residualDeg, adjOf, lookup]
  | cons e g ih =>
    obtain ⟨k, a⟩ := e
    simp only [keys, List.map_cons, List.nodup_cons] at h
    have ih1 := ih h.2
    simp only [residualDeg] at ih1 ⊢
    by_cases hk : k = u
    · subst hk
      have hnil : adjOf g k = [] := adjOf_of_not_mem g h.1
      rw [hnil] at ih1
      simp only [List.count_nil, add_zero] at ih1
      simp at ih1
      simp [List.filter_cons, hu, adjOf, lookup, add_comm]
      omega
    · have hadj : adjOf ((k, a) :: g) u = adjOf g u := by simp [adjOf, lookup, hk]
      rw [hadj]
      by_cases hS : k ∈ S
      · simp [List.filter_cons, hS]
        simpa using ih1
      · simp [List.filter_cons, hS, hk]
        simp at ih1
        omega

theorem count_le_residualDeg (g : GoMap (Vertex α) (List (Vertex α))) (h : (keys g).Nodup)
    (S : List (Vertex α)) {u : Vertex α} (hu : u ∉ S) (v : Vertex α) :
    (adjOf g u).count v ≤ residualDeg g S v := by
  rw [residualDeg_move g h S hu v]
  exact Nat.le_add_left _ _

theorem residualDeg_eq_zero_iff (g : GoMap (Vertex α) (List (Vertex α))) (h : (keys g).Nodup)
    (S : List (Vertex α)) (v : Vertex α) :
    residualDeg g S v = 0 ↔ ∀ u, v ∈ adjOf g u → u ∈ S := by
  constructor
  · intro h0 u hv
    by_contra hu
    have := count_le_residualDeg g h S hu v
    rw [h0] at this
    have hpos : 0 < (adjOf g u).count v := List.count_pos_iff.2 hv
    omega
  · intro hall
    simp only [residualDeg]
    apply List.sum_eq_zero
    intro n hn
    obtain ⟨e, he, rfl⟩ := List.mem_map.1 hn
    obtain ⟨he1, he2⟩ := List.mem_filter.1 he
    obtain ⟨k, a⟩ := e
    have hk : k ∉ S := by simpa using he2
    have ha : adjOf g k = a := adjOf_of_mem g h he1
    apply List.count_eq_zero_of_not_mem
    intro hv
    exact hk (hall k (ha ▸ hv))

end Residual

section LoopLemmas
variable {α : Type} [DecidableEq α]

theorem relax_inv (U S : List (Vertex α)) (R : Vertex α → Nat) (adj : List (Vertex α))
    (hcount : ∀ w, adj.count w ≤ R w) (hU : ∀ w, w ∈ adj → w ∈ U) :
    ∀ (rest done next : List (Vertex α)) (d : GoMap (Vertex α) Int),
      done ++ rest = adj → RelaxInv U S R done next d →
      RelaxInv U S R adj (relax rest next d).1 (relax rest next d).2 := by
  intro rest
  induction rest with
  | nil =>
    intro done next d hsplit hinv
    have : done = adj := by simpa using hsplit
    subst this
    simpa [relax] using hinv
  | cons v rest ih =>
    intro done next d hsplit hinv
    have hsplit1 : (done ++ [v]) ++ rest = adj := by simpa using hsplit
    have hvadj : v ∈ adj := by rw [← hsplit]; simp
    have hvU : v ∈ U := hU v hvadj
    have hvkeys : v ∈ keys d := by rw [hinv.keysEq]; exact hvU
    have hcnt : (done ++ [v]).count v ≤ adj.count v := by
      rw [← hsplit1]
      simp only [List.count_append]
      omega
    have hcv : (done ++ [v]).count v = done.count v + 1 := by simp
    have hdegv : degOf d v = (R v : Int) - (done.count v : Int) := hinv.deg v
    have hRv := hcount v
    have hpos : 0 < degOf d v := by rw [hdegv]; omega
    have hvnot : v ∉ S ++ next := by
      intro hmem
      have := ((hinv.zero v).1 hmem).2
      omega
    have hkeys1 : keys (store d v (degOf d v - 1)) = U := by
      rw [keys_store_of_mem d _ hvkeys, hinv.keysEq]
    have hdeg1 : ∀ w, degOf (store d v (degOf d v - 1)) w
        = (R w : Int) - ((done ++ [v]).count w : Int) := by
      intro w
      by_cases hw : w = v
      · subst hw
        rw [degOf_store_same, hcv, hdegv]
        push_cast
        ring
      · rw [degOf_store_ne d _ hw, hinv.deg w]
        have : (done ++ [v]).count w = done.count w := by
          simp [List.count_append, List.count_cons, Ne.symm hw]
        rw [this]
    simp only [relax]
    by_cases hz : degOf (store d v (degOf d v - 1)) v = 0
    · rw [if_pos hz]
      apply ih (done ++ [v]) (next ++ [v]) _ hsplit1
      refine ⟨hkeys1, hdeg1, ?_, ?_⟩
      · rw [← List.append_assoc]
        apply List.Nodup.append hinv.nodup (List.nodup_singleton v)
        simpa using hvnot
      · intro w
        rw [← List.append_assoc, List.mem_append, List.mem_singleton]
        by_cases hw : w = v
        · subst hw
          simp [hvU, hz]
        · rw [degOf_store_ne d _ hw, hinv.zero w]
          simp [hw]
    · rw [if_neg hz]
      apply ih (done ++ [v]) next _ hsplit1
      refine ⟨hkeys1, hdeg1, hinv.nodup, ?_⟩
      intro w
      by_cases hw : w = v
      · subst hw
        simp only [hz, and_false, iff_false]
        exact hvnot
      · rw [degOf_store_ne d _ hw, hinv.zero w]

theorem loopInv_step (g : GoMap (Vertex α) (List (Vertex α))) (U : List (Vertex α))
    (hg : GraphOK g U) (st : SortState α) (hinv : LoopInv g U st) (u : Vertex α)
    (hu : st.next.getLast? = some u) :
    LoopInv g U ⟨(relax (adjOf g u) st.next.dropLast st.inDegree).1, st.sorted ++ [u],
      (relax (adjOf g u) st.next.dropLast st.inDegree).2⟩ := by
  have hnext : st.next = st.next.dropLast ++ [u] := by
    have h1 : st.next ≠ [] := by
      intro h
      rw [h] at hu
      simp at hu
    have h2 := List.dropLast_append_getLast h1
    have h3 : st.next.getLast h1 = u := by
      have := List.getLast?_eq_getLast _ h1
      rw [this] at hu
      exact Option.some.inj hu
    rw [h3] at h2
    exact h2.symm
  have hnd : (st.sorted ++ (st.next.dropLast ++ [u])).Nodup := by
    rw [← hnext]; exact hinv.nodup
  have hnd1 : ((st.sorted ++ [u]) ++ st.next.dropLast).Nodup := by
    refine List.Perm.nodup ?_ hnd
    rw [List.append_assoc]
    exact List.Perm.append_left _ List.perm_append_comm
  have hunot : u ∉ st.sorted := by
    intro hmem
    rw [← List.append_assoc] at hnd
    have := (List.nodup_append.1 hnd).2.2
    exact List.disjoint_left.1 this (List.mem_append_left _ hmem) (List.mem_singleton_self u)
  have hmem1 : ∀ w, w ∈ (st.sorted ++ [u]) ++ st.next.dropLast ↔ w ∈ st.sorted ++ st.next := by
    intro w
    have h1 : w ∈ st.next ↔ w ∈ st.next.dropLast ∨ w = u := by
      conv_lhs => rw [hnext]
      simp
    simp only [List.mem_append, List.mem_singleton, h1]
    tauto
  have hstart : RelaxInv U (st.sorted ++ [u]) (residualDeg g st.sorted) [] st.next.dropLast
      st.inDegree := by
    refine ⟨hinv.keysEq, ?_, hnd1, ?_⟩
    · intro w
      simpa using hinv.deg w
    · intro w
      rw [hmem1 w, hinv.zero w]
  have hfin := relax_inv U (st.sorted ++ [u]) (residualDeg g st.sorted) (adjOf g u)
    (fun w => count_le_residualDeg g hg.nodupKeys st.sorted hunot w)
    (fun w hw => hg.destsIn u w hw) (adjOf g u) [] st.next.dropLast st.inDegree
    (by simp) hstart
  have hpred : ∀ x, u ∈ adjOf g x → x ∈ st.sorted := by
    intro x hx
    have hvnext : u ∈ st.sorted ++ st.next := by
      rw [hnext]; simp
    have hz := ((hinv.zero u).1 hvnext).2
    rw [hinv.deg u] at hz
    have hz' : residualDeg g st.sorted u = 0 := by exact_mod_cast hz
    exact (residualDeg_eq_zero_iff g hg.nodupKeys st.sorted u).1 hz' x hx
  have hget : ∀ (k : Nat) (w : Vertex α), (st.sorted ++ [u])[k]? = some w →
      (k < st.sorted.length ∧ st.sorted[k]? = some w) ∨ (k = st.sorted.length ∧ w = u) := by
    intro k w hk
    rw [List.getElem?_append] at hk
    by_cases hlt : k < st.sorted.length
    · rw [if_pos hlt] at hk
      exact Or.inl ⟨hlt, hk⟩
    · rw [if_neg hlt] at hk
      right
      have hk0 : k - st.sorted.length = 0 := by
        by_contra hne
        have : ([u] : List (Vertex α))[k - st.sorted.length]? = none := by
          apply List.getElem?_eq_none
          simp only [List.length_singleton]
          omega
        rw [this] at hk
        exact Option.noConfusion hk
      rw [hk0] at hk
      refine ⟨by omega, ?_⟩
      simpa using hk.symm
  refine ⟨hfin.keysEq, hfin.nodup, ?_, hfin.zero, ?_, ?_⟩
  · intro v
    show degOf _ v = _
    rw [hfin.deg v, residualDeg_move g hg.nodupKeys st.sorted hunot v]
    push_cast
    ring
  · intro x v hxv hv
    show x ∈ st.sorted ++ [u]
    have hv' : v ∈ st.sorted ++ [u] := hv
    rcases List.mem_append.1 hv' with hvs | hvu
    · exact List.mem_append_left _ (hinv.closed x v hxv hvs)
    · have hvu' : v = u := List.mem_singleton.1 hvu
      subst hvu'
      exact List.mem_append_left _ (hpred x hxv)
  · intro x v hxv i j hi hj
    have hi' : (st.sorted ++ [u])[i]? = some x := hi
    have hj' : (st.sorted ++ [u])[j]? = some v := hj
    rcases hget i x hi' with ⟨hi1, hi2⟩ | ⟨hi1, hi2⟩
    · rcases hget j v hj' with ⟨hj1, hj2⟩ | ⟨hj1, hj2⟩
      · exact hinv.order x v hxv i j hi2 hj2
      · omega
    · subst hi2
      exfalso
      rcases hget j v hj' with ⟨hj1, hj2⟩ | ⟨hj1, hj2⟩
      · exact hunot (hinv.closed x v hxv (List.getElem?_mem hj2))
      · subst hj2
        exact hunot (hpred v hxv)

theorem sortLoop_spec (g : GoMap (Vertex α) (List (Vertex α))) (U : List (Vertex α))
    (hg : GraphOK g U) :
    ∀ (budget : Nat) (st : SortState α), LoopInv g U st →
      U.length ≤ st.sorted.length + budget →
      ∃ st', sortLoop g budget st = some st' ∧ LoopInv g U st' ∧ st'.next = [] := by
  intro budget
  induction budget with
  | zero =>
    intro st hinv hlen
    have hsub : st.sorted ++ st.next ⊆ U := fun w hw => ((hinv.zero w).1 hw).1
    have hle := (List.Nodup.subperm hinv.nodup hsub).length_le
    have hnil : st.next = [] := by
      apply List.eq_nil_of_length_eq_zero
      simp only [List.length_append] at hle
      omega
    exact ⟨st, by simp [sortLoop, hnil], hinv, hnil⟩
  | succ budget ih =>
    intro st hinv hlen
    cases hlast : st.next.getLast? with
    | none =>
      have hnil : st.next = [] := List.getLast?_eq_none_iff.1 hlast
      exact ⟨st, by simp [sortLoop, hlast], hinv, hnil⟩
    | some u =>
      have hstep := loopInv_step g U hg st hinv u hlast
      obtain ⟨st', h1, h2, h3⟩ := ih _ hstep (by simp only [List.length_append, List.length_singleton]; omega)
      exact ⟨st', by simp only [sortLoop, hlast]; exact h1, h2, h3⟩

end LoopLemmas

section TableLemmas
variable {α : Type} [DecidableEq α]

theorem mem_iff_lookup {κ β : Type} [DecidableEq κ] (m : GoMap κ β) (h : (keys m).Nodup)
    (k : κ) (b : β) : (k, b) ∈ m ↔ lookup m k = some b := by
  induction m with
  | nil => simp [lookup]
  | cons e m ih =>
    obtain ⟨k', b'⟩ := e
    simp only [keys, List.map_cons, List.nodup_cons] at h
    by_cases hk : k' = k
    · subst hk
      have hnot : ∀ b, (k', b) ∉ m := fun b hb => h.1 (List.mem_map.2 ⟨(k', b), hb, rfl⟩)
      simp only [List.mem_cons, Prod.mk.injEq, true_and, lookup, if_true, Option.some.injEq]
      constructor
      · rintro (h1 | h1)
        · exact h1.symm
        · exact absurd h1 (hnot b)
      · intro h1
        exact Or.inl h1.symm
    · have hk' : ¬ k = k' := fun h' => hk h'.symm
      simp only [List.mem_cons, Prod.mk.injEq, hk', false_and, false_or, lookup, hk, if_false]
      exact ih h.2

theorem initDegree_aux (ks : List (Vertex α)) :
    ∀ d : GoMap (Vertex α) Int, (keys d).Nodup → (∀ v, degOf d v = 0) →
      (keys (ks.foldl (fun d n => store d n 0) d)).Nodup ∧
      (∀ v, v ∈ keys (ks.foldl (fun d n => store d n 0) d) ↔ v ∈ keys d ∨ v ∈ ks) ∧
      (∀ v, degOf (ks.foldl (fun d n => store d n 0) d) v = 0) := by
  induction ks with
  | nil => intro d h1 h2; simp [h1, h2]
  | cons k ks ih =>
    intro d h1 h2
    have h3 : ∀ v, degOf (store d k 0) v = 0 := by
      intro v
      by_cases hv : v = k
      · subst hv; exact degOf_store_same d v 0
      · rw [degOf_store_ne d 0 hv]; exact h2 v
    obtain ⟨i1, i2, i3⟩ := ih (store d k 0) (nodup_keys_store d k 0 h1) h3
    refine ⟨i1, ?_, i3⟩
    intro v
    simp only [List.foldl_cons, List.mem_cons]
    rw [i2 v, mem_keys_store]
    tauto

theorem countAdjacent_spec (adj : List (Vertex α)) :
    ∀ d : GoMap (Vertex α) Int, (keys d).Nodup →
      (keys (countAdjacent d adj)).Nodup ∧
      (∀ v, v ∈ keys (countAdjacent d adj) ↔ v ∈ keys d ∨ v ∈ adj) ∧
      (∀ v, degOf (countAdjacent d adj) v = degOf d v + (adj.count v : Int)) := by
  induction adj with
  | nil => intro d h; simp [countAdjacent, h]
  | cons a adj ih =>
    intro d h
    obtain ⟨i1, i2, i3⟩ := ih (store d a (degOf d a + 1)) (nodup_keys_store d a _ h)
    simp only [countAdjacent, List.foldl_cons] at i1 i2 i3 ⊢
    refine ⟨i1, ?_, ?_⟩
    · intro v
      rw [i2 v, mem_keys_store, List.mem_cons]
      tauto
    · intro v
      rw [i3 v]
      by_cases hv : v = a
      · subst hv
        rw [degOf_store_same]
        simp only [List.count_cons_self]
        push_cast
        ring
      · rw [degOf_store_ne d _ hv]
        have : (a :: adj).count v = adj.count v := by
          simp [List.count_cons, Ne.symm hv]
        rw [this]

theorem countDegree_spec (entries : List (Vertex α × List (Vertex α))) :
    ∀ d : GoMap (Vertex α) Int, (keys d).Nodup →
      (keys (countDegree d entries)).Nodup ∧
      (∀ v, v ∈ keys (countDegree d entries) ↔ v ∈ keys d ∨ ∃ e ∈ entries, v ∈ e.2) ∧
      (∀ v, degOf (countDegree d entries) v
        = degOf d v + (((entries.map (fun e => e.2.count v)).sum : Nat) : Int)) := by
  induction entries with
  | nil => intro d h; simp [countDegree, h]
  | cons e entries ih =>
    intro d h
    obtain ⟨c1, c2, c3⟩ := countAdjacent_spec e.2 d h
    obtain ⟨i1, i2, i3⟩ := ih (countAdjacent d e.2) c1
    simp only [countDegree, List.foldl_cons] at i1 i2 i3 ⊢
    refine ⟨i1, ?_, ?_⟩
    · intro v
      rw [i2 v, c2 v]
      simp only [List.mem_cons, exists_eq_or_imp]
      tauto
    · intro v
      rw [i3 v, c3 v]
      simp only [List.map_cons, List.sum_cons]
      push_cast
      ring

theorem inDegreeTable_spec (o : MapOrders α) (g : GoMap (Vertex α) (List (Vertex α))) :
    (keys (inDegreeTable o g)).Nodup ∧
    (∀ v, v ∈ keys (inDegreeTable o g) ↔ v ∈ keys g ∨ ∃ e ∈ g, v ∈ e.2) ∧
    (∀ v, degOf (inDegreeTable o g) v = (residualDeg g [] v : Int)) := by
  obtain ⟨a1, a2, a3⟩ := initDegree_aux (keys (o.rangeInit.iter g)) ([] : GoMap (Vertex α) Int)
    (by simp [keys]) (by intro v; simp [degOf, lookup])
  obtain ⟨c1, c2, c3⟩ := countDegree_spec (o.rangeCount.iter g)
    (initDegree (keys (o.rangeInit.iter g))) a1
  have hp1 := o.rangeInit.perm g
  have hp2 := o.rangeCount.perm g
  refine ⟨c1, ?_, ?_⟩
  · intro v
    show v ∈ keys (countDegree _ _) ↔ _
    rw [c2 v]
    have h1 : v ∈ keys (initDegree (keys (o.rangeInit.iter g))) ↔ v ∈ keys g := by
      show v ∈ keys (List.foldl _ _ _) ↔ _
      rw [a2 v]
      simp only [keys, List.map_nil, List.not_mem_nil, false_or]
      exact (hp1.map Prod.fst).mem_iff
    rw [h1]
    have h2 : (∃ e ∈ o.rangeCount.iter g, v ∈ e.2) ↔ ∃ e ∈ g, v ∈ e.2 := by
      constructor
      · rintro ⟨e, he, hv⟩; exact ⟨e, hp2.mem_iff.1 he, hv⟩
      · rintro ⟨e, he, hv⟩; exact ⟨e, hp2.mem_iff.2 he, hv⟩
    rw [h2]
  · intro v
    show degOf (countDegree _ _) v = _
    rw [c3 v]
    have h0 : degOf (initDegree (keys (o.rangeInit.iter g))) v = 0 := a3 v
    rw [h0, zero_add]
    have hsum : ((o.rangeCount.iter g).map (fun e => e.2.count v)).sum
        = (g.map (fun e => e.2.count v)).sum := (hp2.map _).sum_eq
    rw [hsum]
    simp [residualDeg]

theorem graphOK_table (o : MapOrders α) (g : GoMap (Vertex α) (List (Vertex α)))
    (h : (keys g).Nodup) : GraphOK g (keys (inDegreeTable o g)) := by
  obtain ⟨_, t2, _⟩ := inDegreeTable_spec o g
  refine ⟨h, fun u hu => (t2 u).2 (Or.inl hu), ?_⟩
  intro u v hv
  refine (t2 v).2 (Or.inr ⟨(u, adjOf g u), ?_, hv⟩)
  apply mem_of_mem_keys
  by_contra hu
  rw [adjOf_of_not_mem g hu] at hv
  simp at hv

theorem loopInv_init (o : MapOrders α) (g : GoMap (Vertex α) (List (Vertex α))) :
    LoopInv g (keys (inDegreeTable o g)) (initState o g) := by
  obtain ⟨t1, t2, t3⟩ := inDegreeTable_spec o g
  have hp := o.rangeReady.perm (inDegreeTable o g)
  have hmem : ∀ v, v ∈ readyList (o.rangeReady.iter (inDegreeTable o g)) ↔
      v ∈ keys (inDegreeTable o g) ∧ degOf (inDegreeTable o g) v = 0 := by
    intro v
    simp only [readyList, List.mem_map, List.mem_filter, decide_eq_true_eq]
    constructor
    · rintro ⟨⟨k, n⟩, ⟨h1, h2⟩, h3⟩
      simp only at h2 h3
      subst h2 h3
      have hm := hp.mem_iff.1 h1
      refine ⟨List.mem_map.2 ⟨_, hm, rfl⟩, ?_⟩
      simp [degOf, (mem_iff_lookup _ t1 k 0).1 hm]
    · rintro ⟨h1, h2⟩
      have hsome := (lookup_isSome_iff (inDegreeTable o g) v).2 h1
      obtain ⟨n, hn⟩ := Option.isSome_iff_exists.1 hsome
      have hn0 : n = 0 := by simpa [degOf, hn] using h2
      subst hn0
      exact ⟨(v, 0), ⟨hp.mem_iff.2 ((mem_iff_lookup _ t1 v 0).2 hn), rfl⟩, rfl⟩
  refine ⟨rfl, ?_, ?_, ?_, ?_, ?_⟩
  · show ([] ++ readyList _).Nodup
    rw [List.nil_append]
    have hnd : ((o.rangeReady.iter (inDegreeTable o g)).map Prod.fst).Nodup :=
      (hp.map Prod.fst).nodup_iff.2 t1
    exact List.Nodup.sublist (List.Sublist.map _ (List.filter_sublist _)) hnd
  · intro v; exact t3 v
  · intro v
    show v ∈ [] ++ readyList _ ↔ _
    rw [List.nil_append]
    exact hmem v
  · intro u v _ hv
    exact absurd hv (List.not_mem_nil v)
  · intro u v _ i j hi _
    simp [initState] at hi

end TableLemmas

section MakeGraphLemmas
variable {α : Type} [DecidableEq α]

theorem ensure_spec (g : GoMap (Vertex α) (List (Vertex α))) (v : Vertex α)
    (h : (keys g).Nodup) :
    (keys (if (lookup g v).isSome then g else store g v [])).Nodup ∧
    (∀ x, x ∈ keys (if (lookup g v).isSome then g else store g v []) ↔ x = v ∨ x ∈ keys g) ∧
    (∀ x, adjOf (if (lookup g v).isSome then g else store g v []) x = adjOf g x) := by
  by_cases hv : (lookup g v).isSome = true
  · have hmem := (lookup_isSome_iff g v).1 hv
    rw [if_pos hv]
    refine ⟨h, ?_, fun _ => rfl⟩
    intro x
    constructor
    · exact Or.inr
    · rintro (h1 | h1)
      · exact h1 ▸ hmem
      · exact h1
  · have hmem : v ∉ keys g := fun hm => hv ((lookup_isSome_iff g v).2 hm)
    rw [if_neg hv]
    refine ⟨nodup_keys_store g v [] h, fun x => mem_keys_store g v x [], ?_⟩
    intro x
    by_cases hx : x = v
    · subst hx
      rw [adjOf_store_same, adjOf_of_not_mem g hmem]
    · exact adjOf_store_ne g [] hx

omit [DecidableEq α] in
theorem isSource_cons (e : Edge α) (es : List (Edge α)) (x : Vertex α) :
    IsSource (e :: es) x ↔ (x ≠ none ∧ (e.1 = x ∨ (e.1 = none ∧ e.2 = x))) ∨ IsSource es x := by
  simp only [IsSource, List.mem_cons, exists_eq_or_imp]
  constructor
  · rintro ⟨h1, h2 | ⟨e', h3, h4⟩⟩
    · exact Or.inl ⟨h1, h2⟩
    · exact Or.inr ⟨h1, e', h3, h4⟩
  · rintro (⟨h1, h2⟩ | ⟨h1, e', h3, h4⟩)
    · exact ⟨h1, Or.inl h2⟩
    · exact ⟨h1, Or.inr ⟨e', h3, h4⟩⟩

theorem makeGraphLoop_spec (es : List (Edge α)) :
    ∀ g0 : GoMap (Vertex α) (List (Vertex α)), (keys g0).Nodup → none ∉ keys g0 →
      ((∃ e ∈ es, e.1 = e.2) ∧ makeGraphLoop es g0 = .error .sameNodes) ∨
      ((∀ e ∈ es, e.1 ≠ e.2) ∧ ∃ g, makeGraphLoop es g0 = .ok g ∧ (keys g).Nodup ∧
        none ∉ keys g ∧ (∀ x, x ∈ keys g ↔ x ∈ keys g0 ∨ IsSource es x) ∧
        (∀ x, x ≠ none → adjOf g x = adjOf g0 x ++ dests es x)) := by
  induction es with
  | nil =>
    intro g0 h1 h2
    right
    refine ⟨by simp, g0, rfl, h1, h2, ?_, ?_⟩
    · intro x; simp [IsSource]
    · intro x _; simp [dests]
  | cons e es ih =>
    intro g0 h1 h2
    obtain ⟨u, v⟩ := e
    by_cases huv : u = v
    · left
      exact ⟨⟨(u, v), List.mem_cons_self _ _, huv⟩, by simp [makeGraphLoop, huv]⟩
    · have key : ∀ g1 : GoMap (Vertex α) (List (Vertex α)),
          makeGraphLoop ((u, v) :: es) g0 = makeGraphLoop es g1 →
          (keys g1).Nodup → none ∉ keys g1 →
          (∀ x, x ∈ keys g1 ↔ x ∈ keys g0 ∨
            (x ≠ none ∧ (u = x ∨ (u = none ∧ v = x)))) →
          (∀ x, x ≠ none → adjOf g1 x ++ dests es x = adjOf g0 x ++ dests ((u, v) :: es) x) →
          ((∃ e ∈ (u, v) :: es, e.1 = e.2) ∧
            makeGraphLoop ((u, v) :: es) g0 = .error .sameNodes) ∨
          ((∀ e ∈ (u, v) :: es, e.1 ≠ e.2) ∧ ∃ g, makeGraphLoop ((u, v) :: es) g0 = .ok g ∧
            (keys g).Nodup ∧ none ∉ keys g ∧
            (∀ x, x ∈ keys g ↔ x ∈ keys g0 ∨ IsSource ((u, v) :: es) x) ∧
            (∀ x, x ≠ none → adjOf g x = adjOf g0 x ++ dests ((u, v) :: es) x)) := by
        intro g1 hrun k1 k2 k3 k4
        rcases ih g1 k1 k2 with ⟨⟨e, he, hee⟩, herr⟩ | ⟨hall, g, hok, n1, n2, n3, n4⟩
        · left
          exact ⟨⟨e, List.mem_cons_of_mem _ he, hee⟩, hrun.trans herr⟩
        · right
          refine ⟨?_, g, hrun.trans hok, n1, n2, ?_, ?_⟩
          · intro e he
            rcases List.mem_cons.1 he with h | h
            · subst h; exact huv
            · exact hall e h
          · intro x
            rw [n3 x, k3 x, isSource_cons]
            tauto
          · intro x hx
            rw [n4 x hx, k4 x hx]
      by_cases hu : u = none
      · subst hu
        have hv : v ≠ none := fun h => huv h.symm
        obtain ⟨e1, e2, e3⟩ := ensure_spec g0 v h1
        apply key _ (by simp [makeGraphLoop, huv]) e1
        · rw [e2]
          rintro (h | h)
          · exact hv h.symm
          · exact h2 h
        · intro x
          rw [e2 x]
          constructor
          · rintro (h | h)
            · subst h
              exact Or.inr ⟨hv, Or.inr ⟨rfl, rfl⟩⟩
            · exact Or.inl h
          · rintro (h | ⟨h3, h4 | ⟨_, h4⟩⟩)
            · exact Or.inr h
            · exact absurd h4.symm h3
            · exact Or.inl h4.symm
        · intro x hx
          rw [e3 x]
          have : dests ((none, v) :: es) x = dests es x := by
            simp [dests, List.filter_cons, Ne.symm hx]
          rw [this]
      · by_cases hv : v = none
        · subst hv
          obtain ⟨e1, e2, e3⟩ := ensure_spec g0 u h1
          apply key _ (by simp [makeGraphLoop, huv, hu]) e1
          · rw [e2]
            rintro (h | h)
            · exact hu h.symm
            · exact h2 h
          · intro x
            rw [e2 x]
            constructor
            · rintro (h | h)
              · subst h
                exact Or.inr ⟨hu, Or.inl rfl⟩
              · exact Or.inl h
            · rintro (h | ⟨h3, h4 | ⟨h4, _⟩⟩)
              · exact Or.inr h
              · exact Or.inl h4.symm
              · exact absurd h4 hu
          · intro x hx
            rw [e3 x]
            have : dests ((u, none) :: es) x = dests es x := by
              simp [dests, List.filter_cons]
            rw [this]
        · apply key (store g0 u (adjOf g0 u ++ [v])) (by simp [makeGraphLoop, huv, hu, hv])
            (nodup_keys_store g0 u _ h1)
          · rw [mem_keys_store]
            rintro (h | h)
            · exact hu h.symm
            · exact h2 h
          · intro x
            rw [mem_keys_store]
            constructor
            · rintro (h | h)
              · subst h
                exact Or.inr ⟨hu, Or.inl rfl⟩
              · exact Or.inl h
            · rintro (h | ⟨h3, h4 | ⟨h4, _⟩⟩)
              · exact Or.inr h
              · exact Or.inl h4.symm
              · exact absurd h4 hu
          · intro x hx
            by_cases hxu : x = u
            · subst hxu
              rw [adjOf_store_same]
              have : dests ((x, v) :: es) x = v :: dests es x := by
                simp [dests, List.filter_cons, hv]
              rw [this]
              simp
            · rw [adjOf_store_ne g0 _ hxu]
              have : dests ((u, v) :: es) x = dests es x := by
                simp [dests, List.filter_cons, Ne.symm hxu]
              rw [this]

theorem makeGraph_spec (edges : List (Edge α)) :
    ((∃ e ∈ edges, e.1 = e.2) ∧ makeGraph edges = .error .sameNodes) ∨
    ((∀ e ∈ edges, e.1 ≠ e.2) ∧ ∃ g, makeGraph edges = .ok g ∧ (keys g).Nodup ∧
      none ∉ keys g ∧ (∀ x, x ∈ keys g ↔ IsSource edges x) ∧
      (∀ x, x ≠ none → adjOf g x = dests edges x)) := by
  rcases makeGraphLoop_spec edges ([] : GoMap (Vertex α) (List (Vertex α)))
    (by simp [keys]) (by simp [keys]) with h | ⟨h1, g, h2, h3, h4, h5, h6⟩
  · exact Or.inl h
  · right
    refine ⟨h1, g, h2, h3, h4, ?_, ?_⟩
    · intro x
      rw [h5 x]
      simp [keys]
    · intro x hx
      rw [h6 x hx]
      simp [adjOf, lookup]

theorem mem_dests (edges : List (Edge α)) (u v : Vertex α) :
    v ∈ dests edges u ↔ (u, v) ∈ edges ∧ v ≠ none := by
  simp only [dests, List.mem_map, List.mem_filter, decide_eq_true_eq]
  constructor
  · rintro ⟨⟨a, b⟩, ⟨h1, h2, h3⟩, h4⟩
    simp only at h2 h3 h4
    subst h2 h4
    exact ⟨h1, h3⟩
  · rintro ⟨h1, h2⟩
    exact ⟨(u, v), ⟨h1, rfl, h2⟩, rfl⟩

theorem mem_adjOf_iff (edges : List (Edge α)) (g : GoMap (Vertex α) (List (Vertex α)))
    (hnone : none ∉ keys g) (hadj : ∀ x, x ≠ none → adjOf g x = dests edges x)
    (u v : Vertex α) : v ∈ adjOf g u ↔ EdgeRel edges u v := by
  by_cases hu : u = none
  · subst hu
    rw [adjOf_of_not_mem g hnone]
    simp [EdgeRel]
  · rw [hadj u hu, mem_dests]
    simp only [EdgeRel]
    tauto

end MakeGraphLemmas

section OrderLemmas
variable {V : Type}

theorem closed_reflTransGen (r : V → V → Prop) (l : List V)
    (hclosed : ∀ u v, r u v → v ∈ l → u ∈ l) {a b : V}
    (h : Relation.ReflTransGen r a b) (hb : b ∈ l) : a ∈ l := by
  induction h with
  | refl => exact hb
  | tail _ hbc ih => exact ih (hclosed _ _ hbc hb)

theorem order_transGen (r : V → V → Prop) (l : List V)
    (hclosed : ∀ u v, r u v → v ∈ l → u ∈ l)
    (horder : ∀ u v, r u v → ∀ i j : Nat, l[i]? = some u → l[j]? = some v → i < j)
    {a b : V} (h : Relation.TransGen r a b) :
    ∀ i j : Nat, l[i]? = some a → l[j]? = some b → i < j := by
  induction h with
  | single hab => exact horder _ _ hab
  | tail _ hbc ih =>
    intro i j hi hj
    have hb := hclosed _ _ hbc (List.getElem?_mem hj)
    obtain ⟨k, hk⟩ := List.getElem?_of_mem hb
    have h1 := ih i k hi hk
    have h2 := horder _ _ hbc k j hk hj
    omega

theorem not_on_cycle_of_mem (r : V → V → Prop) (l : List V)
    (hclosed : ∀ u v, r u v → v ∈ l → u ∈ l)
    (horder : ∀ u v, r u v → ∀ i j : Nat, l[i]? = some u → l[j]? = some v → i < j)
    {c v : V} (hc : Relation.TransGen r c c) (hcv : Relation.ReflTransGen r c v) :
    v ∉ l := by
  intro hv
  have hcl := closed_reflTransGen r l hclosed hcv hv
  obtain ⟨i, hi⟩ := List.getElem?_of_mem hcl
  have := order_transGen r l hclosed horder hc i i hi hi
  omega

theorem downstream_of_cycle [DecidableEq V] (r : V → V → Prop) (U : List V) (S : V → Prop)
    (hSU : ∀ v, S v → v ∈ U) (hpred : ∀ v, S v → ∃ u, S u ∧ r u v) :
    ∀ v, S v → ∃ c, Relation.TransGen r c c ∧ Relation.ReflTransGen r c v := by
  let B : V → Prop := fun v => ∃ c, Relation.TransGen r c c ∧ Relation.ReflTransGen r c v
  let r' : {x // x ∈ U} → {x // x ∈ U} → Prop :=
    fun a b => Relation.TransGen r a.1 b.1 ∧ ¬ B a.1
  haveI : IsTrans {x // x ∈ U} r' := ⟨fun a b c hab hbc => ⟨hab.1.trans hbc.1, hab.2⟩⟩
  haveI : IsIrrefl {x // x ∈ U} r' :=
    ⟨fun a haa => haa.2 ⟨a.1, haa.1, Relation.ReflTransGen.refl⟩⟩
  have hwf : WellFounded r' := Finite.wellFounded_of_trans_of_irrefl r'
  intro v hv
  by_contra hB
  let T : Set {x // x ∈ U} := {x | S x.1 ∧ ¬ B x.1}
  have hne : T.Nonempty := ⟨⟨v, hSU v hv⟩, hv, hB⟩
  obtain ⟨m, hm, hmin⟩ := hwf.has_min T hne
  obtain ⟨p, hp, hpm⟩ := hpred m.1 hm.1
  have hpB : ¬ B p := by
    rintro ⟨c, hc, hcp⟩
    exact hm.2 ⟨c, hc, hcp.tail hpm⟩
  exact hmin ⟨p, hSU p hp⟩ ⟨hp, hpB⟩ ⟨Relation.TransGen.single hpm, hpB⟩

end OrderLemmas

section KahnLemmas
variable {α : Type} [DecidableEq α]

/-- What the sort loop leaves in `sorted`, in terms of the graph `g`. -/
theorem loopInv_final (g : GoMap (Vertex α) (List (Vertex α))) (U : List (Vertex α))
    (hg : GraphOK g U) (st : SortState α) (hinv : LoopInv g U st) (hnext : st.next = []) :
    st.sorted.Nodup ∧
    (∀ v, v ∈ st.sorted ↔ v ∈ U ∧
      ¬ ∃ c, Relation.TransGen (fun a b => b ∈ adjOf g a) c c ∧
        Relation.ReflTransGen (fun a b => b ∈ adjOf g a) c v) := by
  have hnd : st.sorted.Nodup := by
    have := hinv.nodup
    rw [hnext, List.append_nil] at this
    exact this
  have hzero : ∀ v, v ∈ st.sorted ↔ v ∈ U ∧ degOf st.inDegree v = 0 := by
    intro v
    have := hinv.zero v
    rw [hnext, List.append_nil] at this
    exact this
  refine ⟨hnd, ?_⟩
  intro v
  constructor
  · intro hv
    refine ⟨((hzero v).1 hv).1, ?_⟩
    rintro ⟨c, hc, hcv⟩
    exact not_on_cycle_of_mem (fun a b => b ∈ adjOf g a) st.sorted hinv.closed hinv.order
      hc hcv hv
  · rintro ⟨hvU, hB⟩
    by_contra hv
    apply hB
    apply downstream_of_cycle (fun a b => b ∈ adjOf g a) U (fun x => x ∈ U ∧ x ∉ st.sorted)
      (fun x hx => hx.1) ?_ v ⟨hvU, hv⟩
    rintro x ⟨hxU, hx⟩
    have hres : residualDeg g st.sorted x ≠ 0 := by
      intro h0
      apply hx
      refine (hzero x).2 ⟨hxU, ?_⟩
      rw [hinv.deg x, h0]
      rfl
    rw [Ne, residualDeg_eq_zero_iff g hg.nodupKeys] at hres
    push_neg at hres
    obtain ⟨u, hu1, hu2⟩ := hres
    refine ⟨u, ⟨?_, hu2⟩, hu1⟩
    apply hg.keysIn
    by_contra hk
    rw [adjOf_of_not_mem g hk] at hu1
    simp at hu1

end KahnLemmas

section MainLemmas
variable {α : Type} [DecidableEq α]

theorem isVertex_iff (edges : List (Edge α)) (g : GoMap (Vertex α) (List (Vertex α)))
    (hnd : (keys g).Nodup) (hsrc : ∀ x, x ∈ keys g ↔ IsSource edges x)
    (hrel : ∀ u v, v ∈ adjOf g u ↔ EdgeRel edges u v) (v : Vertex α) :
    (v ∈ keys g ∨ ∃ e ∈ g, v ∈ e.2) ↔ IsVertex edges v := by
  constructor
  · rintro (h | ⟨⟨k, a⟩, he, hv⟩)
    · obtain ⟨h1, e, h2, h3⟩ := (hsrc v).1 h
      refine ⟨h1, e, h2, ?_⟩
      rcases h3 with h3 | ⟨_, h3⟩
      · exact Or.inl h3
      · exact Or.inr h3
    · have ha : adjOf g k = a := adjOf_of_mem g hnd he
      have hr : EdgeRel edges k v := (hrel k v).1 (ha ▸ hv)
      exact ⟨hr.2.2, (k, v), hr.1, Or.inr rfl⟩
  · rintro ⟨h1, ⟨a, b⟩, h2, h3⟩
    rcases h3 with h3 | h3
    · simp only at h3
      subst h3
      exact Or.inl ((hsrc a).2 ⟨h1, (a, b), h2, Or.inl rfl⟩)
    · simp only at h3
      subst h3
      by_cases ha : a = none
      · exact Or.inl ((hsrc b).2 ⟨h1, (a, b), h2, Or.inr ⟨ha, rfl⟩⟩)
      · right
        have hr : b ∈ adjOf g a := (hrel a b).2 ⟨h2, ha, h1⟩
        have hk : a ∈ keys g := by
          by_contra hk
          rw [adjOf_of_not_mem g hk] at hr
          simp at hr
        exact ⟨(a, adjOf g a), mem_of_mem_keys g hk, hr⟩

/-- The outcome of `Toposort` in terms of the edge list: the error of `makeGraph`
when an edge has two equal sides; otherwise the sort loop finishes, leaving in
`sorted` the vertices that are neither on a cycle nor reachable from one, in an order
that respects the edges, and the length check decides between the two results. -/
theorem Toposort_spec (o : MapOrders α) (edges : List (Edge α)) :
    ((∃ e ∈ edges, e.1 = e.2) ∧ Toposort o edges = some (.error .sameNodes)) ∨
    ((∀ e ∈ edges, e.1 ≠ e.2) ∧ ∃ (g : GoMap (Vertex α) (List (Vertex α))) (st : SortState α),
      makeGraph edges = .ok g ∧ (keys g).Nodup ∧
      (∀ x, x ∈ keys g ↔ IsSource edges x) ∧
      (keys st.inDegree).Nodup ∧ (∀ v, v ∈ keys st.inDegree ↔ IsVertex edges v) ∧
      (∀ v, v ∈ st.sorted ↔ v ∈ keys st.inDegree ∧ degOf st.inDegree v = 0) ∧
      SortedSpec edges st.sorted ∧
      Toposort o edges =
        if st.sorted.length < g.length then
          some (.error (.cycle (cycleNodes (o.rangeCycle.iter st.inDegree))))
        else some (.ok st.sorted)) := by
  rcases makeGraph_spec edges with ⟨h1, h2⟩ | ⟨h1, g, h2, h3, h4, h5, h6⟩
  · left
    exact ⟨h1, by simp [Toposort, h2]⟩
  · right
    have hrel : ∀ u v, v ∈ adjOf g u ↔ EdgeRel edges u v := mem_adjOf_iff edges g h4 h6
    have hreleq : (fun a b => b ∈ adjOf g a) = EdgeRel edges := by
      funext a b
      exact propext (hrel a b)
    have hg := graphOK_table o g h3
    obtain ⟨t1, t2, _⟩ := inDegreeTable_spec o g
    obtain ⟨st, s1, s2, s3⟩ := sortLoop_spec g _ hg (keys (inDegreeTable o g)).length
      (initState o g) (loopInv_init o g) (by simp [initState])
    obtain ⟨f1, f2⟩ := loopInv_final g _ hg st s2 s3
    rw [hreleq] at f2
    have hU : ∀ v, v ∈ keys st.inDegree ↔ IsVertex edges v := by
      intro v
      rw [s2.keysEq, t2 v]
      exact isVertex_iff edges g h3 h5 hrel v
    refine ⟨h1, g, st, h2, h3, h5, ?_, hU, ?_, ⟨f1, ?_, ?_, ?_⟩, ?_⟩
    · rw [s2.keysEq]; exact t1
    · intro v
      have := s2.zero v
      rw [s3, List.append_nil, ← s2.keysEq] at this
      exact this
    · intro v
      rw [f2 v, ← s2.keysEq, hU v]
      rfl
    · intro u v huv hv
      exact s2.closed u v ((hrel u v).2 huv) hv
    · intro u v huv
      exact s2.order u v ((hrel u v).2 huv)
    · simp only [Toposort, h2, s1]

end MainLemmas

section ReverseLemmas
variable {β : Type}

theorem length_swapAt (s : List β) (i opp : Nat) : (swapAt s i opp).length = s.length := by
  unfold swapAt
  split <;> simp

theorem getElem?_swapAt (s : List β) (i opp : Nat) (hi : i < s.length) (ho : opp < s.length)
    (j : Nat) :
    (swapAt s i opp)[j]? = if j = opp then s[i]? else if j = i then s[opp]? else s[j]? := by
  have h1 : s[i]? = some s[i] := List.getElem?_eq_getElem hi
  have h2 : s[opp]? = some s[opp] := List.getElem?_eq_getElem ho
  simp only [swapAt, h1, h2]
  by_cases hjo : j = opp
  · subst hjo
    rw [if_pos rfl, List.getElem?_set_self (by simpa using ho)]
  · rw [if_neg hjo, List.getElem?_set_ne (Ne.symm hjo)]
    by_cases hji : j = i
    · subst hji
      rw [if_pos rfl, List.getElem?_set_self hi]
    · rw [if_neg hji, List.getElem?_set_ne (Ne.symm hji)]

theorem reverseLoop_spec (n : Nat) :
    ∀ s : List β, 2 * n ≤ s.length →
      (reverseLoop n s).length = s.length ∧
      ∀ j : Nat, (reverseLoop n s)[j]? =
        if j < n ∨ (s.length - n ≤ j ∧ j < s.length) then s[s.length - 1 - j]? else s[j]? := by
  induction n with
  | zero =>
    intro s _
    refine ⟨rfl, ?_⟩
    intro j
    have : ¬ (j < 0 ∨ (s.length - 0 ≤ j ∧ j < s.length)) := by omega
    rw [if_neg this]
    rfl
  | succ n ih =>
    intro s hlen
    have hlen' := length_swapAt s n (s.length - 1 - n)
    obtain ⟨i1, i2⟩ := ih (swapAt s n (s.length - 1 - n)) (by rw [hlen']; omega)
    have hsw := getElem?_swapAt s n (s.length - 1 - n) (by omega) (by omega)
    refine ⟨by simp only [reverseLoop]; rw [i1, hlen'], ?_⟩
    intro j
    simp only [reverseLoop]
    rw [i2 j, hlen', hsw, hsw]
    by_cases h1 : j < n
    · have c1 : j < n ∨ (s.length - n ≤ j ∧ j < s.length) := Or.inl h1
      have c2 : j < n + 1 ∨ (s.length - (n + 1) ≤ j ∧ j < s.length) := Or.inl (by omega)
      rw [if_pos c1, if_pos c2, if_neg (by omega), if_neg (by omega)]
    · by_cases h2 : j = n
      · subst h2
        have c1 : ¬ (j < j ∨ (s.length - j ≤ j ∧ j < s.length)) := by omega
        have c2 : j < j + 1 ∨ (s.length - (j + 1) ≤ j ∧ j < s.length) := Or.inl (by omega)
        rw [if_neg c1, if_pos c2, if_neg (by omega), if_pos rfl]
      · by_cases h3 : j < s.length - 1 - n
        · have c1 : ¬ (j < n ∨ (s.length - n ≤ j ∧ j < s.length)) := by omega
          have c2 : ¬ (j < n + 1 ∨ (s.length - (n + 1) ≤ j ∧ j < s.length)) := by omega
          rw [if_neg c1, if_neg c2, if_neg (by omega), if_neg (by omega)]
        · by_cases h4 : j = s.length - 1 - n
          · have c1 : ¬ (j < n ∨ (s.length - n ≤ j ∧ j < s.length)) := by omega
            have c2 : j < n + 1 ∨ (s.length - (n + 1) ≤ j ∧ j < s.length) :=
              Or.inr (by omega)
            have e1 : s.length - 1 - j = n := by omega
            rw [if_neg c1, if_pos c2, if_pos h4, e1]
          · by_cases h5 : j < s.length
            · have c1 : j < n ∨ (s.length - n ≤ j ∧ j < s.length) := Or.inr (by omega)
              have c2 : j < n + 1 ∨ (s.length - (n + 1) ≤ j ∧ j < s.length) :=
                Or.inr (by omega)
              rw [if_pos c1, if_pos c2, if_neg (by omega), if_neg (by omega)]
            · have c1 : ¬ (j < n ∨ (s.length - n ≤ j ∧ j < s.length)) := by omega
              have c2 : ¬ (j < n + 1 ∨ (s.length - (n + 1) ≤ j ∧ j < s.length)) := by omega
              rw [if_neg c1, if_neg c2, if_neg (by omega), if_neg (by omega)]

theorem reverseLoop_eq_reverse (s : List β) : reverseLoop (s.length / 2) s = s.reverse := by
  obtain ⟨h1, h2⟩ := reverseLoop_spec (s.length / 2) s (by omega)
  apply List.ext_getElem?
  intro j
  rw [h2 j]
  by_cases hj : j < s.length
  · rw [List.getElem?_reverse hj]
    by_cases c : j < s.length / 2 ∨ (s.length - s.length / 2 ≤ j ∧ j < s.length)
    · rw [if_pos c]
    · rw [if_neg c]
      have : s.length - 1 - j = j := by omega
      rw [this]
  · have e1 : s.reverse[j]? = none := List.getElem?_eq_none (by simp; omega)
    have e2 : s[j]? = none := List.getElem?_eq_none (by omega)
    have e3 : s[s.length - 1 - j]? = s[j]? ∨ ¬ (j < s.length / 2 ∨
        (s.length - s.length / 2 ≤ j ∧ j < s.length)) := Or.inr (by omega)
    rcases e3 with e3 | e3
    · rw [e3, ite_self, e1, e2]
    · rw [if_neg e3, e1, e2]

end ReverseLemmas

section SharedLemmas
variable {α : Type} [DecidableEq α]

theorem Toposort_ok_spec (o : MapOrders α) (edges : List (Edge α)) (l : List (Vertex α))
    (h : Toposort o edges = some (.ok l)) :
    SortedSpec edges l ∧ ∀ e ∈ edges, e.1 ≠ e.2 := by
  rcases Toposort_spec o edges with ⟨_, h2⟩ | ⟨h1, g, st, _, _, _, _, _, _, hs, h2⟩
  · rw [h2] at h
    cases h
  · rw [h2] at h
    by_cases hlt : st.sorted.length < g.length
    · rw [if_pos hlt] at h
      cases h
    · rw [if_neg hlt] at h
      cases h
      exact ⟨hs, h1⟩

theorem ToposortR_of_ok (o : MapOrders α) (edges : List (Edge α)) (l : List (Vertex α))
    (h : Toposort o edges = some (.ok l)) : ToposortR o edges = some (.ok l.reverse) := by
  simp [ToposortR, h, reverseLoop_eq_reverse]

theorem ToposortR_of_error (o : MapOrders α) (edges : List (Edge α)) (err : TopoError α)
    (h : Toposort o edges = some (.error err)) : ToposortR o edges = some (.error err) := by
  simp [ToposortR, h]

omit [DecidableEq α] in
theorem edgeRel_congr (edges1 edges2 : List (Edge α)) (h : ∀ e, e ∈ edges1 ↔ e ∈ edges2) :
    EdgeRel edges1 = EdgeRel edges2 := by
  funext u v
  simp only [EdgeRel, h (u, v)]

omit [DecidableEq α] in
theorem isVertex_congr (edges1 edges2 : List (Edge α)) (h : ∀ e, e ∈ edges1 ↔ e ∈ edges2) :
    IsVertex edges1 = IsVertex edges2 := by
  funext v
  simp only [IsVertex, h]

omit [DecidableEq α] in
theorem isSource_congr (edges1 edges2 : List (Edge α)) (h : ∀ e, e ∈ edges1 ↔ e ∈ edges2) :
    IsSource edges1 = IsSource edges2 := by
  funext v
  simp only [IsSource, h]

omit [DecidableEq α] in
theorem blocked_congr (edges1 edges2 : List (Edge α)) (h : ∀ e, e ∈ edges1 ↔ e ∈ edges2) :
    Blocked edges1 = Blocked edges2 := by
  funext v
  simp only [Blocked, edgeRel_congr edges1 edges2 h]

theorem perm_of_same_mem {V : Type} {l1 l2 : List V} (h1 : l1.Nodup) (h2 : l2.Nodup)
    (h : ∀ v, v ∈ l1 ↔ v ∈ l2) : l1.Perm l2 :=
  (List.perm_ext_iff_of_nodup h1 h2).2 h

/-- Two edge lists with the same edges (as sets) give the same kind of outcome,
whatever the iteration orders, and on success the same vertices. -/
theorem outcome_congr (o1 o2 : MapOrders α) (edges1 edges2 : List (Edge α))
    (h : ∀ e, e ∈ edges1 ↔ e ∈ edges2) :
    ((∃ err, Toposort o1 edges1 = some (.error err)) ↔
      (∃ err, Toposort o2 edges2 = some (.error err))) ∧
    ((∃ l, Toposort o1 edges1 = some (.ok l)) ↔ (∃ l, Toposort o2 edges2 = some (.ok l))) ∧
    (∀ l1 l2, Toposort o1 edges1 = some (.ok l1) → Toposort o2 edges2 = some (.ok l2) →
      l1.Perm l2) := by
  have hperm : ∀ l1 l2, Toposort o1 edges1 = some (.ok l1) →
      Toposort o2 edges2 = some (.ok l2) → l1.Perm l2 := by
    intro l1 l2 h1 h2
    obtain ⟨s1, _⟩ := Toposort_ok_spec o1 edges1 l1 h1
    obtain ⟨s2, _⟩ := Toposort_ok_spec o2 edges2 l2 h2
    apply perm_of_same_mem s1.nodup s2.nodup
    intro v
    rw [s1.mem v, s2.mem v, isVertex_congr edges1 edges2 h, blocked_congr edges1 edges2 h]
  rcases Toposort_spec o1 edges1 with ⟨a1, a2⟩ | ⟨a1, g1, st1, _, a3, a4, _, _, _, a5, a6⟩
  · rcases Toposort_spec o2 edges2 with ⟨b1, b2⟩ | ⟨b1, _⟩
    · rw [a2, b2]
      simp
    · obtain ⟨e, he, hee⟩ := a1
      exact absurd hee (b1 e ((h e).1 he))
  · rcases Toposort_spec o2 edges2 with ⟨b1, b2⟩ | ⟨b1, g2, st2, _, b3, b4, _, _, _, b5, b6⟩
    · obtain ⟨e, he, hee⟩ := b1
      exact absurd hee (a1 e ((h e).2 he))
    · have hs : st1.sorted.length = st2.sorted.length := by
        apply List.Perm.length_eq
        apply perm_of_same_mem a5.nodup b5.nodup
        intro v
        rw [a5.mem v, b5.mem v, isVertex_congr edges1 edges2 h, blocked_congr edges1 edges2 h]
      have hg : g1.length = g2.length := by
        have : (keys g1).length = (keys g2).length := by
          apply List.Perm.length_eq
          apply perm_of_same_mem a3 b3
          intro v
          rw [a4 v, b4 v, isSource_congr edges1 edges2 h]
        simpa [keys] using this
      rw [a6, b6, hs, hg]
      by_cases hlt : st2.sorted.length < g2.length
      · simp only [if_pos hlt]
        simp
      · simp only [if_neg hlt]
        refine ⟨by simp, by simp, ?_⟩
        intro l1 l2 e1 e2
        apply hperm l1 l2
        · rw [a6, hs, hg, if_neg hlt]; exact e1
        · rw [b6, if_neg hlt]; exact e2

omit [DecidableEq α] in
theorem not_blocked_of_acyclic (edges : List (Edge α)) (h : ¬ HasCycle edges) (v : Vertex α) :
    ¬ Blocked edges v := by
  rintro ⟨c, hc, _⟩
  exact h ⟨c, hc⟩

/-- On an edge list without equal-sided edge and without cycle the sort succeeds and
returns every vertex once, in an order that respects the edges. -/
theorem Toposort_acyclic (o : MapOrders α) (edges : List (Edge α))
    (hne : ∀ e ∈ edges, e.1 ≠ e.2) (hac : ¬ HasCycle edges) :
    ∃ l, Toposort o edges = some (.ok l) ∧ SortedSpec edges l ∧
      ∀ v, v ∈ l ↔ IsVertex edges v := by
  rcases Toposort_spec o edges with ⟨⟨e, he, hee⟩, _⟩ | ⟨_, g, st, _, a3, a4, _, _, _, a5, a6⟩
  · exact absurd hee (hne e he)
  · have hmem : ∀ v, v ∈ st.sorted ↔ IsVertex edges v := by
      intro v
      rw [a5.mem v]
      exact and_iff_left (not_blocked_of_acyclic edges hac v)
    have hsub : keys g ⊆ st.sorted := by
      intro x hx
      obtain ⟨h1, e, h2, h3⟩ := (a4 x).1 hx
      refine (hmem x).2 ⟨h1, e, h2, ?_⟩
      rcases h3 with h3 | ⟨_, h3⟩
      · exact Or.inl h3
      · exact Or.inr h3
    have hle : g.length ≤ st.sorted.length := by
      have := (List.Nodup.subperm a3 hsub).length_le
      simpa [keys] using this
    refine ⟨st.sorted, ?_, a5, hmem⟩
    rw [a6, if_neg (by omega)]

omit [DecidableEq α] in
theorem not_hasCycle_of_rank (edges : List (Edge α)) (rank : Vertex α → Nat)
    (h : ∀ e ∈ edges, e.1 ≠ none → e.2 ≠ none → rank e.1 < rank e.2) : ¬ HasCycle edges := by
  have hlt : ∀ a b, Relation.TransGen (EdgeRel edges) a b → rank a < rank b := by
    intro a b hab
    induction hab with
    | single hab => exact h _ hab.1 hab.2.1 hab.2.2
    | tail _ hbc ih => exact lt_trans ih (h _ hbc.1 hbc.2.1 hbc.2.2)
  rintro ⟨v, hv⟩
  exact lt_irrefl _ (hlt v v hv)

theorem mem_insertAt (edges : List (Edge α)) (p : Nat) (e x : Edge α) :
    x ∈ insertAt edges p e ↔ x = e ∨ x ∈ edges := by
  have h : x ∈ edges ↔ x ∈ edges.take p ++ edges.drop p := by rw [List.take_append_drop]
  rw [h]
  simp only [insertAt, List.mem_append, List.mem_cons]
  tauto

theorem mem_insertCopies (e : Edge α) (ps : List Nat) :
    ∀ edges : List (Edge α), e ∈ edges → ∀ x, x ∈ insertCopies e ps edges ↔ x ∈ edges := by
  induction ps with
  | nil => intro edges _ x; rfl
  | cons p ps ih =>
    intro edges he x
    have he' : e ∈ insertAt edges p e := (mem_insertAt edges p e e).2 (Or.inl rfl)
    simp only [insertCopies]
    rw [ih (insertAt edges p e) he' x, mem_insertAt]
    constructor
    · rintro (h | h)
      · exact h ▸ he
      · exact h
    · exact Or.inr

/-- A duplicate-free list whose consecutive elements appear in this order in a
duplicate-free list `l` with the same elements is `l`. -/
theorem eq_of_chain {V : Type} (l vs : List V) (hl : l.Nodup) (hvs : vs.Nodup)
    (hmem : ∀ x, x ∈ l ↔ x ∈ vs)
    (hord : ∀ k : Nat, ∀ a b, vs[k]? = some a → vs[k + 1]? = some b →
      ∀ i j : Nat, l[i]? = some a → l[j]? = some b → i < j) : l = vs := by
  have hlen : l.length = vs.length := (perm_of_same_mem hl hvs hmem).length_eq
  have hex : ∀ k : Nat, ∃ i : Nat, k < vs.length → l[i]? = vs[k]? := by
    intro k
    by_cases hk : k < vs.length
    · have : vs[k] ∈ l := (hmem _).2 (List.getElem_mem hk)
      obtain ⟨i, hi⟩ := List.getElem?_of_mem this
      exact ⟨i, fun _ => by rw [hi, List.getElem?_eq_getElem hk]⟩
    · exact ⟨0, fun h => absurd h hk⟩
  choose p hp using hex
  have hplt : ∀ k, k < vs.length → p k < l.length := by
    intro k hk
    have h1 := hp k hk
    rw [List.getElem?_eq_getElem hk] at h1
    exact (List.getElem?_eq_some.1 h1).1
  have hstep : ∀ k, k + 1 < vs.length → p k < p (k + 1) := by
    intro k hk
    have hk0 : k < vs.length := by omega
    apply hord k vs[k] vs[k + 1] (List.getElem?_eq_getElem hk0) (List.getElem?_eq_getElem hk)
    · rw [hp k hk0, List.getElem?_eq_getElem hk0]
    · rw [hp (k + 1) hk, List.getElem?_eq_getElem hk]
  have hlow : ∀ k, k < vs.length → k ≤ p k := by
    intro k
    induction k with
    | zero => intro _; exact Nat.zero_le _
    | succ k ih =>
      intro hk
      have := ih (by omega)
      have := hstep k hk
      omega
  have hup : ∀ d k, k + d + 1 = vs.length → p k ≤ k := by
    intro d
    induction d with
    | zero =>
      intro k hk
      have := hplt k (by omega)
      omega
    | succ d ih =>
      intro k hk
      have := ih (k + 1) (by omega)
      have := hstep k (by omega)
      omega
  have hid : ∀ k, k < vs.length → p k = k := by
    intro k hk
    have h1 := hlow k hk
    have h2 := hup (vs.length - 1 - k) k (by omega)
    omega
  apply List.ext_getElem?
  intro k
  by_cases hk : k < vs.length
  · have := hp k hk
    rw [hid k hk] at this
    exact this
  · rw [List.getElem?_eq_none (by omega), List.getElem?_eq_none (by omega)]

end SharedLemmas

/-! ## The claims -/

theorem isVertex_iff_of_forall {α : Type} (edges : List (Edge α)) (vs : List (Vertex α))
    (h1 : ∀ x ∈ vs, x ≠ none ∧ ∃ e ∈ edges, e.1 = x ∨ e.2 = x)
    (h2 : ∀ e ∈ edges, (e.1 ≠ none → e.1 ∈ vs) ∧ (e.2 ≠ none → e.2 ∈ vs)) :
    ∀ x, x ∈ vs ↔ IsVertex edges x := by
  intro x
  constructor
  · exact h1 x
  · rintro ⟨hx, e, he, h | h⟩
    · exact h ▸ (h2 e he).1 (h ▸ hx)
    · exact h ▸ (h2 e he).2 (h ▸ hx)

theorem reversed_positions {V : Type} (s : List V) (a b : V)
    (h : ∀ i j : Nat, s[i]? = some a → s[j]? = some b → i < j) :
    ∀ i j : Nat, s.reverse[i]? = some b → s.reverse[j]? = some a → i < j := by
  intro i j hi hj
  have hi' : i < s.reverse.length := (List.getElem?_eq_some.1 hi).1
  have hj' : j < s.reverse.length := (List.getElem?_eq_some.1 hj).1
  rw [List.length_reverse] at hi' hj'
  rw [List.getElem?_reverse hi'] at hi
  rw [List.getElem?_reverse hj'] at hj
  have := h _ _ hj hi
  omega

theorem exists_positions {V : Type} (l : List V) (a b : V) (ha : a ∈ l) (hb : b ∈ l)
    (h : ∀ i j : Nat, l[i]? = some a → l[j]? = some b → i < j) :
    ∃ i j : Nat, i < j ∧ l[i]? = some a ∧ l[j]? = some b := by
  obtain ⟨i, hi⟩ := List.getElem?_of_mem ha
  obtain ⟨j, hj⟩ := List.getElem?_of_mem hb
  exact ⟨i, j, h i j hi hj, hi, hj⟩

/-- C1: when `Toposort` returns a list, whatever the iteration orders of the maps,
for every edge `(u, v)` of the input with `u` and `v` non-nil and both in the list,
`u` is in the list at a position strictly before `v`: such positions exist, and
every position of `u` is less than every position of `v`. -/
theorem toposort_precedence {α : Type} [DecidableEq α] (o : MapOrders α)
    (edges : List (Edge α)) (l : List (Vertex α)) (h : Toposort o edges = some (.ok l))
    (u v : Vertex α) (he : (u, v) ∈ edges) (hu : u ≠ none) (hv : v ≠ none)
    (hul : u ∈ l) (hvl : v ∈ l) :
    (∃ i j : Nat, i < j ∧ l[i]? = some u ∧ l[j]? = some v) ∧
    ∀ i j : Nat, l[i]? = some u → l[j]? = some v → i < j := by
  obtain ⟨hs, _⟩ := Toposort_ok_spec o edges l h
  have hord := hs.order u v ⟨he, hu, hv⟩
  exact ⟨exists_positions l u v hul hvl hord, hord⟩

theorem toposort_precedence_witness :
    Toposort (MapOrders.id Nat)
        [(some 1, some 3), (some 3, some 4), (some 0, some 1), (some 0, some 2),
          (some 2, some 3), (some 5, some 2), (some 5, some 4)]
      = some (.ok [some 5, some 0, some 2, some 1, some 3, some 4]) ∧
    ((∃ i j : Nat, i < j ∧
        [some 5, some 0, some 2, some 1, some 3, some 4][i]? = some (some 2) ∧
        [some 5, some 0, some 2, some 1, some 3, some 4][j]? = some (some 3)) ∧
      ∀ i j : Nat, [some 5, some 0, some 2, some 1, some 3, some 4][i]? = some (some 2) →
        [some 5, some 0, some 2, some 1, some 3, some 4][j]? = some (some 3) → i < j) :=
  ⟨rfl, toposort_precedence (MapOrders.id Nat)
    [(some 1, some 3), (some 3, some 4), (some 0, some 1), (some 0, some 2),
      (some 2, some 3), (some 5, some 2), (some 5, some 4)]
    [some 5, some 0, some 2, some 1, some 3, some 4] (by rfl) (some 2) (some 3) (by decide)
    (by decide) (by decide) (by decide) (by decide)⟩

/-- C2: on an edge list with no equal-sided edge and no cycle, `Toposort` returns no
error, and the returned list has no duplicates and holds exactly the non-nil vertices
referenced anywhere in the input, also those that occur only as destinations. -/
theorem toposort_complete {α : Type} [DecidableEq α] (o : MapOrders α)
    (edges : List (Edge α)) (hne : ∀ e ∈ edges, e.1 ≠ e.2) (hac : ¬ HasCycle edges) :
    ∃ l, Toposort o edges = some (.ok l) ∧ l.Nodup ∧
      ∀ v, v ∈ l ↔ (v ≠ none ∧ ∃ e ∈ edges, e.1 = v ∨ e.2 = v) := by
  obtain ⟨l, h1, h2, h3⟩ := Toposort_acyclic o edges hne hac
  exact ⟨l, h1, h2.nodup, h3⟩

theorem toposort_complete_witness :
    (∀ e ∈ [((some 0 : Vertex Nat), (some 1 : Vertex Nat)), (some 0, some 2), (none, some 7),
        (some 9, none)], e.1 ≠ e.2) ∧
    ∃ l, Toposort (MapOrders.rev Nat)
        [(some 0, some 1), (some 0, some 2), (none, some 7), (some 9, none)] = some (.ok l) ∧
      l.Nodup ∧ ∀ v, v ∈ l ↔ (v ≠ none ∧
        ∃ e ∈ [((some 0 : Vertex Nat), (some 1 : Vertex Nat)), (some 0, some 2), (none, some 7),
          (some 9, none)], e.1 = v ∨ e.2 = v) :=
  ⟨by decide, toposort_complete (MapOrders.rev Nat) _ (by decide)
    (not_hasCycle_of_rank _ (fun v => v.getD 0) (by decide))⟩

/-- C3: an input whose graph has a cycle (`0 → 1 → 0`) on which `Toposort` returns a
list and no error, whatever the iteration orders: `sorted` holds the four vertices
`2, 3, 4, 5`, the map `g` has the three keys `0, 1, 2`, and the check
`len(sorted) < len(g)` does not fire. -/
theorem toposort_cycle_not_reported (o : MapOrders Nat) :
    HasCycle [((some 0 : Vertex Nat), (some 1 : Vertex Nat)), (some 1, some 0),
      (some 2, some 3), (some 2, some 4), (some 2, some 5)] ∧
    ∃ l, Toposort o [(some 0, some 1), (some 1, some 0), (some 2, some 3), (some 2, some 4),
      (some 2, some 5)] = some (.ok l) ∧ l.Perm [some 2, some 5, some 4, some 3] := by
  refine ⟨⟨some 0, Relation.TransGen.tail (Relation.TransGen.single (b := some 1) ?_) ?_⟩, ?_⟩
  · exact ⟨by decide, by decide, by decide⟩
  · exact ⟨by decide, by decide, by decide⟩
  · have hc := outcome_congr (MapOrders.id Nat) o
      [(some 0, some 1), (some 1, some 0), (some 2, some 3), (some 2, some 4), (some 2, some 5)]
      [(some 0, some 1), (some 1, some 0), (some 2, some 3), (some 2, some 4), (some 2, some 5)]
      (fun _ => Iff.rfl)
    obtain ⟨l, hl⟩ := hc.2.1.1 ⟨_, rfl⟩
    exact ⟨l, hl, (hc.2.2 _ l rfl hl).symm⟩

/-- C4: on an edge list that contains, at any position, an edge `{X, X}` with `X`
non-nil, `Toposort` and `ToposortR` return the error of `makeGraph` for equal sides and
no list, whatever the other edges are. -/
theorem toposort_self_loop {α : Type} [DecidableEq α] (o : MapOrders α)
    (edges : List (Edge α)) (X : α) (h : (some X, some X) ∈ edges) :
    Toposort o edges = some (.error .sameNodes) ∧
    ToposortR o edges = some (.error .sameNodes) := by
  have h1 : Toposort o edges = some (.error .sameNodes) := by
    rcases Toposort_spec o edges with ⟨_, h2⟩ | ⟨h1, _⟩
    · exact h2
    · exact absurd rfl (h1 _ h)
  exact ⟨h1, ToposortR_of_error o edges _ h1⟩

theorem toposort_self_loop_witness :
    ((some 7, some 7) : Edge Nat) ∈
      [((some 0 : Vertex Nat), (some 1 : Vertex Nat)), (some 1, some 0), (some 7, some 7)] ∧
    Toposort (MapOrders.id Nat) [(some 0, some 1), (some 1, some 0), (some 7, some 7)]
      = some (.error .sameNodes) ∧
    ToposortR (MapOrders.id Nat) [(some 0, some 1), (some 1, some 0), (some 7, some 7)]
      = some (.error .sameNodes) :=
  ⟨by decide, toposort_self_loop (MapOrders.id Nat) _ 7 (by decide)⟩

/-- C5: for every edge list and the same iteration orders, `ToposortR` returns what
`Toposort` returns with the list, when there is one, reversed: the same error when
`Toposort` returns an error, and the elements of the list of `Toposort` in reverse
positional order otherwise, for every length of the list. -/
theorem toposortR_eq_reverse {α : Type} [DecidableEq α] (o : MapOrders α)
    (edges : List (Edge α)) :
    ToposortR o edges = (Toposort o edges).map (Except.map List.reverse) := by
  cases h : Toposort o edges with
  | none => simp [ToposortR, h]
  | some r =>
    cases r with
    | error err => rw [ToposortR_of_error o edges err h]; rfl
    | ok l => rw [ToposortR_of_ok o edges l h]; rfl

theorem toposortR_eq_reverse_witness :
    ToposortR (MapOrders.id Nat) [(some 0, some 1), (some 0, some 2), (some 3, none)]
      = some (.ok [some 1, some 2, some 0, some 3]) ∧
    Toposort (MapOrders.id Nat) [(some 0, some 1), (some 0, some 2), (some 3, none)]
      = some (.ok [some 3, some 0, some 2, some 1]) := by
  have h := toposortR_eq_reverse (MapOrders.id Nat)
    [(some 0, some 1), (some 0, some 2), (some 3, none)]
  exact ⟨h.trans (by rfl), by rfl⟩

/-- C6: on an edge list with no cycle and no equal-sided edge, `ToposortR` succeeds and
returns every vertex once, in a topological order of the reversed graph: for every
input edge `(u, v)` with both sides non-nil, `v` is in the output at a position
strictly before `u`. -/
theorem toposortR_transpose_order {α : Type} [DecidableEq α] (o : MapOrders α)
    (edges : List (Edge α)) (hne : ∀ e ∈ edges, e.1 ≠ e.2) (hac : ¬ HasCycle edges) :
    ∃ l, ToposortR o edges = some (.ok l) ∧ l.Nodup ∧
      (∀ v, v ∈ l ↔ (v ≠ none ∧ ∃ e ∈ edges, e.1 = v ∨ e.2 = v)) ∧
      ∀ u v, (u, v) ∈ edges → u ≠ none → v ≠ none →
        (∃ i j : Nat, i < j ∧ l[i]? = some v ∧ l[j]? = some u) ∧
        ∀ i j : Nat, l[i]? = some v → l[j]? = some u → i < j := by
  obtain ⟨s, h1, h2, h3⟩ := Toposort_acyclic o edges hne hac
  refine ⟨s.reverse, ToposortR_of_ok o edges s h1, List.nodup_reverse.2 h2.nodup, ?_, ?_⟩
  · intro v
    rw [List.mem_reverse]
    exact h3 v
  · intro u v he hu hv
    have hord := reversed_positions s u v (h2.order u v ⟨he, hu, hv⟩)
    have hum : u ∈ s.reverse := List.mem_reverse.2 ((h3 u).2 ⟨hu, (u, v), he, Or.inl rfl⟩)
    have hvm : v ∈ s.reverse := List.mem_reverse.2 ((h3 v).2 ⟨hv, (u, v), he, Or.inr rfl⟩)
    exact ⟨exists_positions s.reverse v u hvm hum hord, hord⟩

theorem toposortR_transpose_order_witness :
    (∀ e ∈ [((some 0 : Vertex Nat), (some 1 : Vertex Nat)), (some 1, some 2), (some 0, some 2),
        (some 5, none)], e.1 ≠ e.2) ∧
    ∃ l, ToposortR (MapOrders.id Nat)
        [(some 0, some 1), (some 1, some 2), (some 0, some 2), (some 5, none)] = some (.ok l) ∧
      l.Nodup ∧
      (∀ v, v ∈ l ↔ (v ≠ none ∧
        ∃ e ∈ [((some 0 : Vertex Nat), (some 1 : Vertex Nat)), (some 1, some 2),
          (some 0, some 2), (some 5, none)], e.1 = v ∨ e.2 = v)) ∧
      ∀ u v, (u, v) ∈ [((some 0 : Vertex Nat), (some 1 : Vertex Nat)), (some 1, some 2),
          (some 0, some 2), (some 5, none)] → u ≠ none → v ≠ none →
        (∃ i j : Nat, i < j ∧ l[i]? = some v ∧ l[j]? = some u) ∧
        ∀ i j : Nat, l[i]? = some v → l[j]? = some u → i < j :=
  ⟨by decide, toposortR_transpose_order (MapOrders.id Nat) _ (by decide)
    (not_hasCycle_of_rank _ (fun v => v.getD 0) (by decide))⟩

/-- C7: an input with the one-nil edge `{1, nil}` on which `Toposort` returns a list and
no error, whatever the iteration orders, and the list does not hold `1`: the vertex is
on the cycle `0 → 1 → 0`, which the check `len(sorted) < len(g)` does not report
(four vertices sorted, three keys in `g`). -/
theorem toposort_one_nil_vertex_missing (o : MapOrders Nat) :
    ((some 1, none) : Edge Nat) ∈ [((some 0 : Vertex Nat), (some 1 : Vertex Nat)),
      (some 1, some 0), (some 1, none), (some 2, some 3), (some 2, some 4), (some 2, some 5)] ∧
    ∃ l, Toposort o [(some 0, some 1), (some 1, some 0), (some 1, none), (some 2, some 3),
      (some 2, some 4), (some 2, some 5)] = some (.ok l) ∧ some 1 ∉ l := by
  refine ⟨by decide, ?_⟩
  have hc := outcome_congr (MapOrders.id Nat) o
    [(some 0, some 1), (some 1, some 0), (some 1, none), (some 2, some 3), (some 2, some 4),
      (some 2, some 5)]
    [(some 0, some 1), (some 1, some 0), (some 1, none), (some 2, some 3), (some 2, some 4),
      (some 2, some 5)] (fun _ => Iff.rfl)
  have h0 : Toposort (MapOrders.id Nat) [(some 0, some 1), (some 1, some 0), (some 1, none),
      (some 2, some 3), (some 2, some 4), (some 2, some 5)]
      = some (.ok [some 2, some 5, some 4, some 3]) := by rfl
  obtain ⟨l, hl⟩ := hc.2.1.1 ⟨_, h0⟩
  refine ⟨l, hl, ?_⟩
  intro hmem
  have := (hc.2.2 _ l h0 hl).mem_iff.2 hmem
  revert this
  decide

/-- C8: whether `Toposort` returns an error depends neither on the order of the edges
in the input nor on the iteration orders of the maps: on a permutation of the edge
list it returns an error if and only if it does on the original, a list if and only
if it does on the original, and two lists returned hold the same vertices. -/
theorem toposort_outcome_perm_invariant {α : Type} [DecidableEq α] (o o' : MapOrders α)
    (edges edges' : List (Edge α)) (hp : edges.Perm edges') :
    ((∃ err, Toposort o edges = some (.error err)) ↔
      (∃ err, Toposort o' edges' = some (.error err))) ∧
    ((∃ l, Toposort o edges = some (.ok l)) ↔ (∃ l, Toposort o' edges' = some (.ok l))) ∧
    ∀ l l', Toposort o edges = some (.ok l) → Toposort o' edges' = some (.ok l') →
      ∀ v, v ∈ l ↔ v ∈ l' := by
  obtain ⟨h1, h2, h3⟩ := outcome_congr o o' edges edges' (fun _ => hp.mem_iff)
  exact ⟨h1, h2, fun l l' hl hl' v => (h3 l l' hl hl').mem_iff⟩

theorem toposort_outcome_perm_invariant_witness :
    [((some 0 : Vertex Nat), (some 1 : Vertex Nat)), (some 1, some 2), (some 2, some 0)].Perm
      [(some 2, some 0), (some 0, some 1), (some 1, some 2)] ∧
    (((∃ err, Toposort (MapOrders.id Nat)
          [(some 0, some 1), (some 1, some 2), (some 2, some 0)] = some (.error err)) ↔
        (∃ err, Toposort (MapOrders.rev Nat)
          [(some 2, some 0), (some 0, some 1), (some 1, some 2)] = some (.error err))) ∧
      ((∃ l, Toposort (MapOrders.id Nat)
          [(some 0, some 1), (some 1, some 2), (some 2, some 0)] = some (.ok l)) ↔
        (∃ l, Toposort (MapOrders.rev Nat)
          [(some 2, some 0), (some 0, some 1), (some 1, some 2)] = some (.ok l))) ∧
      ∀ l l', Toposort (MapOrders.id Nat)
          [(some 0, some 1), (some 1, some 2), (some 2, some 0)] = some (.ok l) →
        Toposort (MapOrders.rev Nat)
          [(some 2, some 0), (some 0, some 1), (some 1, some 2)] = some (.ok l') →
        ∀ v, v ∈ l ↔ v ∈ l') :=
  ⟨by decide, toposort_outcome_perm_invariant (MapOrders.id Nat) (MapOrders.rev Nat) _ _
    (by decide)⟩

/-- C9: on an edge list with no cycle and no equal-sided edge whose vertices are
`v1, ..., vn` without repetition, with an edge `(vi, vi+1)` in the input for each
consecutive pair, `Toposort` returns exactly `[v1, ..., vn]`, whatever the iteration
orders and however often an edge is repeated. -/
theorem toposort_chain {α : Type} [DecidableEq α] (o : MapOrders α) (edges : List (Edge α))
    (vs : List (Vertex α)) (hne : ∀ e ∈ edges, e.1 ≠ e.2) (hac : ¬ HasCycle edges)
    (hnd : vs.Nodup) (hvs : ∀ x, x ∈ vs ↔ (x ≠ none ∧ ∃ e ∈ edges, e.1 = x ∨ e.2 = x))
    (hchain : ∀ (k : Nat) (a b : Vertex α), vs[k]? = some a → vs[k + 1]? = some b →
      (a, b) ∈ edges) :
    Toposort o edges = some (.ok vs) := by
  obtain ⟨l, h1, h2, h3⟩ := Toposort_acyclic o edges hne hac
  have hnone : ∀ x, x ∈ vs → x ≠ none := fun x hx => ((hvs x).1 hx).1
  have : l = vs := by
    apply eq_of_chain l vs h2.nodup hnd
    · intro x
      rw [h3 x, hvs x]
      rfl
    · intro k a b ha hb
      exact h2.order a b ⟨hchain k a b ha hb, hnone a (List.getElem?_mem ha),
        hnone b (List.getElem?_mem hb)⟩
  rw [← this]
  exact h1

theorem toposort_chain_witness :
    Toposort (MapOrders.rev Nat)
      [(some 0, some 1), (some 0, some 1), (some 0, some 1), (some 0, some 2), (some 0, some 2),
        (some 1, some 2), (some 1, some 2), (some 1, some 2), (some 2, some 3), (some 2, some 3),
        (some 1, some 3), (some 1, some 3)]
      = some (.ok [some 0, some 1, some 2, some 3]) :=
  toposort_chain (MapOrders.rev Nat) _ [some 0, some 1, some 2, some 3] (by decide)
    (not_hasCycle_of_rank _ (fun v => v.getD 0) (by decide)) (by decide)
    (isVertex_iff_of_forall _ _ (by decide) (by decide))
    (by
      intro k a b ha hb
      match k with
      | 0 => cases ha; cases hb; decide
      | 1 => cases ha; cases hb; decide
      | 2 => cases ha; cases hb; decide
      | k + 3 => simp at hb)

/-- C10: for an edge `e` that occurs in the edge list (with both sides non-nil, or any
other edge), putting further copies of `e` in at any positions does not change whether
`Toposort` returns an error or a list, and two lists returned have the same length and
hold the same vertices, whatever the iteration orders. -/
theorem toposort_duplicate_edges {α : Type} [DecidableEq α] (o o' : MapOrders α)
    (edges : List (Edge α)) (e : Edge α) (he : e ∈ edges) (ps : List Nat) :
    ((∃ err, Toposort o edges = some (.error err)) ↔
      (∃ err, Toposort o' (insertCopies e ps edges) = some (.error err))) ∧
    ((∃ l, Toposort o edges = some (.ok l)) ↔
      (∃ l, Toposort o' (insertCopies e ps edges) = some (.ok l))) ∧
    ∀ l l', Toposort o edges = some (.ok l) →
      Toposort o' (insertCopies e ps edges) = some (.ok l') →
      l.length = l'.length ∧ ∀ v, v ∈ l ↔ v ∈ l' := by
  obtain ⟨a1, a2, a3⟩ := outcome_congr o o' edges (insertCopies e ps edges)
    (fun x => (mem_insertCopies e ps edges he x).symm)
  exact ⟨a1, a2, fun l l' hl hl' => ⟨(a3 l l' hl hl').length_eq, fun v =>
    (a3 l l' hl hl').mem_iff⟩⟩

theorem toposort_duplicate_edges_witness :
    insertCopies ((some 0, some 1) : Edge Nat) [0, 3, 1]
        [(some 0, some 1), (some 1, some 2)]
      = [(some 0, some 1), (some 0, some 1), (some 0, some 1), (some 1, some 2),
          (some 0, some 1)] ∧
    (((∃ err, Toposort (MapOrders.id Nat) [(some 0, some 1), (some 1, some 2)]
          = some (.error err)) ↔
        (∃ err, Toposort (MapOrders.id Nat) (insertCopies ((some 0, some 1) : Edge Nat)
          [0, 3, 1] [(some 0, some 1), (some 1, some 2)]) = some (.error err))) ∧
      ((∃ l, Toposort (MapOrders.id Nat) [(some 0, some 1), (some 1, some 2)]
          = some (.ok l)) ↔
        (∃ l, Toposort (MapOrders.id Nat) (insertCopies ((some 0, some 1) : Edge Nat)
          [0, 3, 1] [(some 0, some 1), (some 1, some 2)]) = some (.ok l))) ∧
      ∀ l l', Toposort (MapOrders.id Nat) [(some 0, some 1), (some 1, some 2)]
          = some (.ok l) →
        Toposort (MapOrders.id Nat) (insertCopies ((some 0, some 1) : Edge Nat)
          [0, 3, 1] [(some 0, some 1), (some 1, some 2)]) = some (.ok l') →
        l.length = l'.length ∧ ∀ v, v ∈ l ↔ v ∈ l') :=
  ⟨by decide, toposort_duplicate_edges (MapOrders.id Nat) (MapOrders.id Nat)
    [(some 0, some 1), (some 1, some 2)] (some 0, some 1) (by decide) [0, 3, 1]⟩

section RunLemmas
variable {α : Type} [DecidableEq α]

theorem makeGraph_ok_spec (edges : List (Edge α)) (g : GoMap (Vertex α) (List (Vertex α)))
    (h : makeGraph edges = .ok g) :
    (∀ e ∈ edges, e.1 ≠ e.2) ∧ (keys g).Nodup ∧ none ∉ keys g ∧
    (∀ x, x ∈ keys g ↔ IsSource edges x) ∧ (∀ x, x ≠ none → adjOf g x = dests edges x) := by
  rcases makeGraph_spec edges with ⟨_, h2⟩ | ⟨h1, g', h2, h3, h4, h5, h6⟩
  · rw [h2] at h
    cases h
  · rw [h2] at h
    cases h
    exact ⟨h1, h3, h4, h5, h6⟩

theorem sortLoop_succ (g : GoMap (Vertex α) (List (Vertex α))) (b : Nat) (st : SortState α) :
    sortLoop g (b + 1) st =
      match sortStep g st with
      | none => some st
      | some st1 => sortLoop g b st1 := by
  cases h : st.next.getLast? with
  | none => simp [sortLoop, sortStep, h]
  | some u => simp [sortLoop, sortStep, h]

theorem sortStep_eq_none_iff (g : GoMap (Vertex α) (List (Vertex α))) (st : SortState α) :
    sortStep g st = none ↔ st.next = [] := by
  cases h : st.next.getLast? with
  | none =>
    simp only [sortStep, h, true_iff]
    exact List.getLast?_eq_none_iff.1 h
  | some u =>
    have hne : st.next ≠ [] := by
      intro hnil
      rw [hnil] at h
      simp at h
    simp [sortStep, h, hne]

theorem loopInv_sortStep (g : GoMap (Vertex α) (List (Vertex α))) (U : List (Vertex α))
    (hg : GraphOK g U) (st st1 : SortState α) (hinv : LoopInv g U st)
    (h : sortStep g st = some st1) :
    LoopInv g U st1 ∧ st1.sorted.length = st.sorted.length + 1 := by
  cases hl : st.next.getLast? with
  | none => simp [sortStep, hl] at h
  | some u =>
    simp only [sortStep, hl, Option.some.injEq] at h
    subst h
    exact ⟨loopInv_step g U hg st hinv u hl, by simp⟩

theorem loopInv_sortIter (g : GoMap (Vertex α) (List (Vertex α))) (U : List (Vertex α))
    (hg : GraphOK g U) (k : Nat) :
    ∀ st : SortState α, LoopInv g U st → LoopInv g U (sortIter g k st) := by
  induction k with
  | zero => intro st h; exact h
  | succ k ih =>
    intro st h
    cases hs : sortStep g st with
    | none => simpa [sortIter, hs] using h
    | some st1 =>
      simp only [sortIter, hs]
      exact ih st1 (loopInv_sortStep g U hg st st1 h hs).1

theorem sortLoop_eq_sortIter (g : GoMap (Vertex α) (List (Vertex α))) (b : Nat) :
    ∀ st st' : SortState α, sortLoop g b st = some st' → st' = sortIter g b st := by
  induction b with
  | zero =>
    intro st st' h
    by_cases hn : st.next = []
    · simp only [sortLoop, hn, if_true, Option.some.injEq] at h
      exact h.symm
    · simp [sortLoop, hn] at h
  | succ b ih =>
    intro st st' h
    rw [sortLoop_succ] at h
    cases hs : sortStep g st with
    | none =>
      simp only [hs, Option.some.injEq] at h
      subst h
      simp [sortIter, hs]
    | some st1 =>
      simp only [hs] at h
      simp only [sortIter, hs]
      exact ih st1 st' h

/-- The sort loop on the graph of an edge list: it exits within one iteration per key
of the table, in the state `sortIter` gives, with the invariant. -/
theorem sortLoop_run (o : MapOrders α) (edges : List (Edge α))
    (g : GoMap (Vertex α) (List (Vertex α))) (h : makeGraph edges = .ok g) :
    GraphOK g (keys (inDegreeTable o g)) ∧
    ∃ st, sortLoop g (keys (inDegreeTable o g)).length (initState o g) = some st ∧
      st = sortIter g (keys (inDegreeTable o g)).length (initState o g) ∧
      LoopInv g (keys (inDegreeTable o g)) st ∧ st.next = [] ∧
      Toposort o edges =
        (if st.sorted.length < g.length then
          some (.error (.cycle (cycleNodes (o.rangeCycle.iter st.inDegree))))
        else some (.ok st.sorted)) := by
  obtain ⟨_, h3, _, _, _⟩ := makeGraph_ok_spec edges g h
  have hg := graphOK_table o g h3
  obtain ⟨st, s1, s2, s3⟩ := sortLoop_spec g _ hg (keys (inDegreeTable o g)).length
    (initState o g) (loopInv_init o g) (by simp [initState])
  refine ⟨hg, st, s1, sortLoop_eq_sortIter g _ _ st s1, s2, s3, ?_⟩
  simp only [Toposort, h, s1]

omit [DecidableEq α] in
theorem isVertex_of_blocked (edges : List (Edge α)) (v : Vertex α) (h : Blocked edges v) :
    IsVertex edges v := by
  obtain ⟨c, hc, hcv⟩ := h
  have hdst : ∀ a b, EdgeRel edges a b → IsVertex edges b :=
    fun a b hab => ⟨hab.2.2, (a, b), hab.1, Or.inr rfl⟩
  rcases Relation.ReflTransGen.cases_tail hcv with heq | ⟨b, _, hbv⟩
  · subst heq
    rcases Relation.TransGen.tail'_iff.1 hc with ⟨b, _, hbv⟩
    exact hdst b _ hbv
  · exact hdst b v hbv

theorem table_keys_iff (o : MapOrders α) (edges : List (Edge α))
    (g : GoMap (Vertex α) (List (Vertex α))) (h : makeGraph edges = .ok g) (v : Vertex α) :
    v ∈ keys (inDegreeTable o g) ↔ IsVertex edges v := by
  obtain ⟨_, h3, h4, h5, h6⟩ := makeGraph_ok_spec edges g h
  rw [(inDegreeTable_spec o g).2.1 v]
  exact isVertex_iff edges g h3 h5 (mem_adjOf_iff edges g h4 h6) v

end RunLemmas

section DegreeLemmas
variable {α : Type} [DecidableEq α]

theorem sum_count_store_append (g : GoMap (Vertex α) (List (Vertex α))) (u w v : Vertex α) :
    ((store g u (adjOf g u ++ [w])).map (fun e => e.2.count v)).sum
      = (g.map (fun e => e.2.count v)).sum + [w].count v := by
  induction g with
  | nil => simp [store, adjOf, lookup]
  | cons e g ih =>
    obtain ⟨k, a⟩ := e
    by_cases hk : k = u
    · subst hk
      simp only [store, adjOf, lookup, if_true, Option.getD_some, List.map_cons, List.sum_cons,
        List.count_append]
      omega
    · have hadj : adjOf ((k, a) :: g) u = adjOf g u := by simp [adjOf, lookup, hk]
      rw [hadj]
      simp only [store, hk, if_false, List.map_cons, List.sum_cons, ih]
      omega

theorem sum_count_store_nil (g : GoMap (Vertex α) (List (Vertex α))) (x v : Vertex α)
    (hx : x ∉ keys g) :
    ((store g x []).map (fun e => e.2.count v)).sum = (g.map (fun e => e.2.count v)).sum := by
  induction g with
  | nil => simp [store]
  | cons e g ih =>
    obtain ⟨k, a⟩ := e
    simp only [keys, List.map_cons, List.mem_cons, not_or] at hx
    have hk : ¬ k = x := fun h => hx.1 h.symm
    simp only [store, hk, if_false, List.map_cons, List.sum_cons]
    rw [ih hx.2]

theorem sum_count_ensure (g : GoMap (Vertex α) (List (Vertex α))) (x v : Vertex α) :
    ((if (lookup g x).isSome then g else store g x []).map (fun e => e.2.count v)).sum
      = (g.map (fun e => e.2.count v)).sum := by
  by_cases h : (lookup g x).isSome = true
  · rw [if_pos h]
  · rw [if_neg h]
    exact sum_count_store_nil g x v (fun hm => h ((lookup_isSome_iff g x).2 hm))

theorem makeGraphLoop_sum_count (es : List (Edge α)) (v : Vertex α) (hv : v ≠ none) :
    ∀ g0 g : GoMap (Vertex α) (List (Vertex α)), makeGraphLoop es g0 = .ok g →
      (g.map (fun e => e.2.count v)).sum
        = (g0.map (fun e => e.2.count v)).sum
          + es.countP (fun e => e.1 ≠ none ∧ e.2 ≠ none ∧ e.2 = v) := by
  induction es with
  | nil =>
    intro g0 g h
    simp only [makeGraphLoop, Except.ok.injEq] at h
    subst h
    simp
  | cons e es ih =>
    intro g0 g h
    obtain ⟨a, b⟩ := e
    by_cases hab : a = b
    · simp [makeGraphLoop, hab] at h
    · by_cases ha : a = none
      · subst ha
        simp only [makeGraphLoop, hab, if_false, if_true] at h
        rw [ih _ g h, sum_count_ensure]
        simp [List.countP_cons]
      · by_cases hb : b = none
        · subst hb
          simp only [makeGraphLoop, hab, ha, if_false, if_true] at h
          rw [ih _ g h, sum_count_ensure]
          simp [List.countP_cons]
        · simp only [makeGraphLoop, hab, ha, hb, if_false] at h
          rw [ih _ g h, sum_count_store_append]
          by_cases hbv : b = v
          · subst hbv
            simp [List.countP_cons, ha, hb]
            omega
          · have : [b].count v = 0 := by
              simp [List.count_cons, hbv]
            rw [this]
            simp [List.countP_cons, hbv]

theorem inDegreeTable_lookup (o : MapOrders α) (edges : List (Edge α))
    (g : GoMap (Vertex α) (List (Vertex α))) (h : makeGraph edges = .ok g) (v : Vertex α)
    (hv : IsVertex edges v) :
    lookup (inDegreeTable o g) v
      = some ((edges.countP (fun e => e.1 ≠ none ∧ e.2 ≠ none ∧ e.2 = v) : Nat) : Int) := by
  have hk : v ∈ keys (inDegreeTable o g) := (table_keys_iff o edges g h v).2 hv
  obtain ⟨b, hb⟩ := Option.isSome_iff_exists.1 ((lookup_isSome_iff _ v).2 hk)
  have hdeg := (inDegreeTable_spec o g).2.2 v
  have hsum := makeGraphLoop_sum_count edges v hv.1 [] g h
  have hres : residualDeg g [] v = (g.map (fun e => e.2.count v)).sum := by
    simp [residualDeg]
  rw [hres, hsum] at hdeg
  simp only [degOf, hb, Option.getD_some, List.map_nil, List.sum_nil, zero_add] at hdeg
  rw [hb, hdeg]

end DegreeLemmas

section StarLemmas
variable {α : Type} [DecidableEq α]

theorem store_of_not_mem {κ β : Type} [DecidableEq κ] (m : GoMap κ β) (k : κ) (b : β)
    (h : k ∉ keys m) : store m k b = m ++ [(k, b)] := by
  induction m with
  | nil => rfl
  | cons e m ih =>
    obtain ⟨k', b'⟩ := e
    simp only [keys, List.map_cons, List.mem_cons, not_or] at h
    have hk : ¬ k' = k := fun h' => h.1 h'.symm
    simp only [store, hk, if_false, List.cons_append]
    rw [ih h.2]

theorem makeGraphLoop_star (A : α) (cs : List α) (hA : A ∉ cs) :
    ∀ pre : List (Vertex α), makeGraphLoop (starEdges A cs) [(some A, pre)]
      = .ok [(some A, pre ++ cs.map some)] := by
  induction cs with
  | nil => intro pre; simp [starEdges, makeGraphLoop]
  | cons c cs ih =>
    intro pre
    simp only [List.mem_cons, not_or] at hA
    have hne : ¬ A = c := hA.1
    have h := ih hA.2 (pre ++ [some c])
    simp only [starEdges] at h
    simp only [starEdges, List.map_cons, makeGraphLoop, Option.some.injEq, hne, if_false,
      reduceCtorEq, store, adjOf, lookup, if_true, Option.getD_some]
    rw [h]
    simp

theorem makeGraph_star (A : α) (c : α) (cs : List α) (hA : A ∉ c :: cs) :
    makeGraph (starEdges A (c :: cs)) = .ok [(some A, (c :: cs).map some)] := by
  simp only [List.mem_cons, not_or] at hA
  have hne : ¬ A = c := hA.1
  have h := makeGraphLoop_star A cs hA.2 [some c]
  simp only [starEdges] at h
  simp only [makeGraph, starEdges, List.map_cons, makeGraphLoop, Option.some.injEq, hne,
    if_false, reduceCtorEq, store, adjOf, lookup, Option.getD_none, List.nil_append]
  rw [h]
  simp

theorem countAdjacent_fresh (adj : List (Vertex α)) (hnd : adj.Nodup) :
    ∀ d : GoMap (Vertex α) Int, (∀ v ∈ adj, v ∉ keys d) →
      countAdjacent d adj = d ++ adj.map (fun v => (v, (1 : Int))) := by
  induction adj with
  | nil => intro d _; simp [countAdjacent]
  | cons a adj ih =>
    intro d hd
    obtain ⟨ha, hnd'⟩ := List.nodup_cons.1 hnd
    have hak : a ∉ keys d := hd a (List.mem_cons_self _ _)
    have hdeg : degOf d a = 0 := degOf_of_not_mem d hak
    have hstore : store d a (degOf d a + 1) = d ++ [(a, 1)] := by
      rw [hdeg, store_of_not_mem d a _ hak]
      rfl
    have hrec := ih hnd' (d ++ [(a, 1)]) (by
      intro v hv
      simp only [keys, List.map_append, List.map_cons, List.map_nil, List.mem_append,
        List.mem_singleton, not_or]
      refine ⟨hd v (List.mem_cons_of_mem _ hv), ?_⟩
      rintro rfl
      exact ha hv)
    simp only [countAdjacent, List.foldl_cons] at hrec ⊢
    rw [hstore, hrec]
    simp

theorem iter_singleton {β : Type} (r : RangeOrder β) (x : β) : r.iter [x] = [x] :=
  List.perm_singleton.1 (r.perm [x])

theorem inDegreeTable_star (o : MapOrders α) (A : α) (cs : List α) (hnd : cs.Nodup)
    (hA : A ∉ cs) :
    inDegreeTable o [(some A, cs.map some)]
      = (some A, 0) :: (cs.map some).map (fun v => (v, (1 : Int))) := by
  have hnd' : (cs.map some).Nodup := hnd.map (Option.some_injective α)
  simp only [inDegreeTable, iter_singleton, keys, List.map_cons, List.map_nil, initDegree,
    List.foldl_cons, List.foldl_nil, store, countDegree]
  rw [countAdjacent_fresh (cs.map some) hnd' [(some A, 0)]]
  · rfl
  · intro v hv
    obtain ⟨c, hc, rfl⟩ := List.mem_map.1 hv
    simp only [keys, List.map_cons, List.map_nil, List.mem_singleton, Option.some.injEq]
    rintro rfl
    exact hA hc

omit [DecidableEq α] in
theorem readyList_star (r : RangeOrder (Vertex α × Int)) (A : α) (cs : List (Vertex α)) :
    readyList (r.iter ((some A, 0) :: cs.map (fun v => (v, (1 : Int))))) = [some A] := by
  have hp := (r.perm ((some A, 0) :: cs.map (fun v => (v, (1 : Int))))).filter
    (fun e => decide (e.2 = 0))
  have hf : ((some A, (0 : Int)) :: cs.map (fun v => (v, (1 : Int)))).filter
      (fun e => decide (e.2 = 0)) = [(some A, 0)] := by
    rw [List.filter_cons_of_pos (by simp)]
    congr 1
    apply List.filter_eq_nil_iff.2
    intro e he
    obtain ⟨v, _, rfl⟩ := List.mem_map.1 he
    simp
  rw [hf] at hp
  simp only [readyList, List.perm_singleton.1 hp, List.map_cons, List.map_nil]

theorem relax_push_all (rest : List (Vertex α)) (hnd : rest.Nodup) :
    ∀ (next : List (Vertex α)) (d : GoMap (Vertex α) Int), (∀ v ∈ rest, degOf d v = 1) →
      (relax rest next d).1 = next ++ rest := by
  induction rest with
  | nil => intro next d _; simp [relax]
  | cons v rest ih =>
    intro next d hd
    obtain ⟨hv, hnd'⟩ := List.nodup_cons.1 hnd
    have h1 : degOf (store d v (degOf d v - 1)) v = 0 := by
      rw [degOf_store_same, hd v (List.mem_cons_self _ _)]
      rfl
    simp only [relax, h1, if_true]
    rw [ih hnd' (next ++ [v]) _ (by
      intro w hw
      have hne : w ≠ v := by
        rintro rfl
        exact hv hw
      rw [degOf_store_ne d _ hne]
      exact hd w (List.mem_cons_of_mem _ hw))]
    simp

theorem sortLoop_drain (g : GoMap (Vertex α) (List (Vertex α))) (b : Nat) :
    ∀ (next sorted : List (Vertex α)) (d : GoMap (Vertex α) Int),
      (∀ u ∈ next, adjOf g u = []) → next.length ≤ b →
      sortLoop g b ⟨next, sorted, d⟩ = some ⟨[], sorted ++ next.reverse, d⟩ := by
  induction b with
  | zero =>
    intro next sorted d _ hlen
    have : next = [] := List.eq_nil_of_length_eq_zero (by omega)
    subst this
    simp [sortLoop]
  | succ b ih =>
    intro next sorted d hadj hlen
    rcases List.eq_nil_or_concat next with hnil | ⟨init, u, hcat⟩
    · subst hnil
      simp [sortLoop]
    · rw [List.concat_eq_append] at hcat
      subst hcat
      have hu : adjOf g u = [] := hadj u (by simp)
      have hlen' : init.length ≤ b := by
        simp only [List.length_append, List.length_singleton] at hlen
        omega
      have hlast : (init ++ [u]).getLast? = some u := by simp
      have hdrop : (init ++ [u]).dropLast = init := by simp
      simp only [sortLoop, hlast, hdrop, hu, relax]
      rw [ih init (sorted ++ [u]) d (fun w hw => hadj w (by simp [hw])) hlen']
      simp

end StarLemmas

section RunSpecLemmas
variable {α : Type} [DecidableEq α]

/-- The final state of the sort loop on the graph of an edge list, in terms of the
edge list. -/
theorem sortLoop_run_spec (o : MapOrders α) (edges : List (Edge α))
    (g : GoMap (Vertex α) (List (Vertex α))) (h : makeGraph edges = .ok g) :
    ∃ st, sortLoop g (keys (inDegreeTable o g)).length (initState o g) = some st ∧
      st = sortIter g (keys (inDegreeTable o g)).length (initState o g) ∧
      st.next = [] ∧ keys st.inDegree = keys (inDegreeTable o g) ∧
      (keys st.inDegree).Nodup ∧ (∀ v, v ∈ keys st.inDegree ↔ IsVertex edges v) ∧
      (∀ v, v ∈ st.sorted ↔ v ∈ keys st.inDegree ∧ degOf st.inDegree v = 0) ∧
      SortedSpec edges st.sorted ∧
      Toposort o edges =
        (if st.sorted.length < g.length then
          some (.error (.cycle (cycleNodes (o.rangeCycle.iter st.inDegree))))
        else some (.ok st.sorted)) := by
  obtain ⟨_, _, h4, _, h6⟩ := makeGraph_ok_spec edges g h
  obtain ⟨hg, st, s1, s2, s3, s4, s5⟩ := sortLoop_run o edges g h
  have hrel : ∀ u v, v ∈ adjOf g u ↔ EdgeRel edges u v := mem_adjOf_iff edges g h4 h6
  have hreleq : (fun a b => b ∈ adjOf g a) = EdgeRel edges := by
    funext a b
    exact propext (hrel a b)
  obtain ⟨f1, f2⟩ := loopInv_final g _ hg st s3 s4
  rw [hreleq] at f2
  have hU : ∀ v, v ∈ keys st.inDegree ↔ IsVertex edges v := by
    intro v
    rw [s3.keysEq]
    exact table_keys_iff o edges g h v
  refine ⟨st, s1, s2, s4, s3.keysEq, ?_, hU, ?_, ⟨f1, ?_, ?_, ?_⟩, s5⟩
  · rw [s3.keysEq]
    exact (inDegreeTable_spec o g).1
  · intro v
    have := s3.zero v
    rw [s4, List.append_nil, ← s3.keysEq] at this
    exact this
  · intro v
    rw [f2 v, ← s3.keysEq, hU v]
    rfl
  · intro u v huv hv
    exact s3.closed u v ((hrel u v).2 huv) hv
  · intro u v huv
    exact s3.order u v ((hrel u v).2 huv)

theorem mem_cycleNodes (r : RangeOrder (Vertex α × Int)) (d : GoMap (Vertex α) Int)
    (hnd : (keys d).Nodup) (v : Vertex α) :
    v ∈ cycleNodes (r.iter d) ↔ v ∈ keys d ∧ degOf d v ≠ 0 := by
  have hp := r.perm d
  simp only [cycleNodes, List.mem_map, List.mem_filter, decide_eq_true_eq]
  constructor
  · rintro ⟨⟨k, n⟩, ⟨h1, h2⟩, h3⟩
    simp only at h2 h3
    subst h3
    have hm := hp.mem_iff.1 h1
    refine ⟨List.mem_map.2 ⟨_, hm, rfl⟩, ?_⟩
    simpa [degOf, (mem_iff_lookup _ hnd k n).1 hm] using h2
  · rintro ⟨h1, h2⟩
    obtain ⟨n, hn⟩ := Option.isSome_iff_exists.1 ((lookup_isSome_iff d v).2 h1)
    have hn0 : n ≠ 0 := by simpa [degOf, hn] using h2
    exact ⟨(v, n), ⟨hp.mem_iff.2 ((mem_iff_lookup _ hnd v n).2 hn), hn0⟩, rfl⟩

/-- The state in which the inner loop is entered satisfies its invariant. -/
theorem relaxInv_start (g : GoMap (Vertex α) (List (Vertex α))) (U : List (Vertex α))
    (st : SortState α) (hinv : LoopInv g U st) (u : Vertex α)
    (hu : st.next.getLast? = some u) :
    u ∉ st.sorted ∧
    RelaxInv U (st.sorted ++ [u]) (residualDeg g st.sorted) [] st.next.dropLast
      st.inDegree := by
  have hne : st.next ≠ [] := by
    intro h
    rw [h] at hu
    simp at hu
  have hnext : st.next = st.next.dropLast ++ [u] := by
    have h2 := List.dropLast_append_getLast hne
    have h3 : st.next.getLast hne = u := by
      have := List.getLast?_eq_getLast _ hne
      rw [this] at hu
      exact Option.some.inj hu
    rw [h3] at h2
    exact h2.symm
  have hnd : (st.sorted ++ (st.next.dropLast ++ [u])).Nodup := by
    rw [← hnext]; exact hinv.nodup
  have hnd1 : ((st.sorted ++ [u]) ++ st.next.dropLast).Nodup := by
    refine List.Perm.nodup ?_ hnd
    rw [List.append_assoc]
    exact List.Perm.append_left _ List.perm_append_comm
  have hunot : u ∉ st.sorted := by
    intro hmem
    rw [← List.append_assoc] at hnd
    have := (List.nodup_append.1 hnd).2.2
    exact List.disjoint_left.1 this (List.mem_append_left _ hmem) (List.mem_singleton_self u)
  refine ⟨hunot, hinv.keysEq, ?_, hnd1, ?_⟩
  · intro w
    simpa using hinv.deg w
  · intro w
    have h1 : w ∈ st.next ↔ w ∈ st.next.dropLast ∨ w = u := by
      conv_lhs => rw [hnext]
      simp
    rw [← hinv.zero w]
    simp only [List.mem_append, List.mem_singleton, h1]
    tauto

/-- Every state of the inner loop, after any part `done` of the adjacency list of the
vertex popped, satisfies the invariant of the inner loop. -/
theorem relaxInv_prefix (g : GoMap (Vertex α) (List (Vertex α))) (U : List (Vertex α))
    (hg : GraphOK g U) (st : SortState α) (hinv : LoopInv g U st) (u : Vertex α)
    (hu : st.next.getLast? = some u) (done rest : List (Vertex α))
    (hsplit : adjOf g u = done ++ rest) :
    RelaxInv U (st.sorted ++ [u]) (residualDeg g st.sorted) done
      (relax done st.next.dropLast st.inDegree).1
      (relax done st.next.dropLast st.inDegree).2 ∧
    ∀ w, done.count w ≤ residualDeg g st.sorted w := by
  obtain ⟨hunot, hstart⟩ := relaxInv_start g U st hinv u hu
  have hcount : ∀ w, done.count w ≤ residualDeg g st.sorted w := by
    intro w
    have h1 := count_le_residualDeg g hg.nodupKeys st.sorted hunot w
    rw [hsplit, List.count_append] at h1
    omega
  refine ⟨?_, hcount⟩
  apply relax_inv U (st.sorted ++ [u]) (residualDeg g st.sorted) done hcount ?_ done []
    st.next.dropLast st.inDegree (by simp) hstart
  intro w hw
  exact hg.destsIn u w (by rw [hsplit]; exact List.mem_append_left _ hw)

theorem makeGraph_star_of_ne_nil (A : α) (cs : List α) (hne : cs ≠ []) (hA : A ∉ cs) :
    makeGraph (starEdges A cs) = .ok [(some A, cs.map some)] := by
  obtain ⟨c, cs0, rfl⟩ := List.exists_cons_of_ne_nil hne
  exact makeGraph_star A c cs0 hA

/-- The sort loop entered with `next = [A]`, when the vertices adjacent to `A` have
count 1 and no adjacent vertices of their own: they are pushed in order and popped in
reverse order. -/
theorem sortLoop_star (g : GoMap (Vertex α) (List (Vertex α))) (a : Vertex α)
    (cs : List (Vertex α)) (d : GoMap (Vertex α) Int) (hadjA : adjOf g a = cs)
    (hadj : ∀ u ∈ cs, adjOf g u = []) (hnd : cs.Nodup) (hdeg : ∀ v ∈ cs, degOf d v = 1) :
    sortLoop g (cs.length + 1) ⟨[a], [], d⟩
      = some ⟨[], a :: cs.reverse, (relax cs [] d).2⟩ := by
  have hpush := relax_push_all cs hnd [] d hdeg
  have hstep : sortStep g ⟨[a], [], d⟩ = some ⟨cs, [a], (relax cs [] d).2⟩ := by
    simp only [sortStep, List.getLast?_singleton, List.dropLast_single, hadjA, hpush,
      List.nil_append]
  rw [sortLoop_succ, hstep]
  exact sortLoop_drain g cs.length cs [a] _ hadj (le_refl _)

end RunSpecLemmas

/-- C11: on the input `{0, 1}` the vertex `1`, which occurs only as a destination, is a
vertex of the input and is not a key of the map `makeGraph` returns, although
`Toposort` takes the keys of `g` for the vertexes (the comments at lines 30 and 36,
`len(g)` at lines 28, 31 and 74). -/
theorem makeGraph_destination_not_key :
    makeGraph [((some 0 : Vertex Nat), (some 1 : Vertex Nat))] = .ok [(some 0, [some 1])] ∧
    IsVertex [((some 0 : Vertex Nat), (some 1 : Vertex Nat))] (some 1) ∧
    (some 1 : Vertex Nat) ∉ keys [((some 0 : Vertex Nat), [(some 1 : Vertex Nat)])] :=
  ⟨by rfl, ⟨by decide, (some 0, some 1), by decide, Or.inr rfl⟩, by decide⟩

/-- The keys of the map `makeGraph` returns, as the code computes them: the non-nil
vertices that are the first side of an edge or the non-nil side of a one-nil edge, each
once; for any other vertex of the input `g[v]` reads as the empty list. -/
theorem makeGraph_keys {α : Type} [DecidableEq α] (edges : List (Edge α))
    (g : GoMap (Vertex α) (List (Vertex α))) (h : makeGraph edges = .ok g) :
    (∀ x, x ∈ keys g ↔ (x ≠ none ∧ ∃ e ∈ edges, e.1 = x ∨ (e.1 = none ∧ e.2 = x))) ∧
    (keys g).Nodup ∧
    ∀ v, IsVertex edges v → ¬ IsSource edges v → v ∉ keys g ∧ adjOf g v = [] := by
  obtain ⟨_, h3, _, h5, _⟩ := makeGraph_ok_spec edges g h
  refine ⟨h5, h3, ?_⟩
  intro v _ hns
  have hk : v ∉ keys g := fun hk => hns ((h5 v).1 hk)
  exact ⟨hk, adjOf_of_not_mem g hk⟩

/-- C12: when `makeGraph` succeeds, for every non-nil vertex `u` the destination list
`g[u]` is the sequence of the second sides of the input edges whose first side is `u`
and whose second side is non-nil, in input order, one entry per occurrence; when `u` is
a key, that list is the value stored. One-nil edges contribute nothing to it. -/
theorem makeGraph_adjacency {α : Type} [DecidableEq α] (edges : List (Edge α))
    (g : GoMap (Vertex α) (List (Vertex α))) (h : makeGraph edges = .ok g) (u : Vertex α)
    (hu : u ≠ none) :
    adjOf g u = (edges.filter (fun e => e.1 = u ∧ e.2 ≠ none)).map Prod.snd ∧
    (u ∈ keys g →
      lookup g u = some ((edges.filter (fun e => e.1 = u ∧ e.2 ≠ none)).map Prod.snd)) := by
  obtain ⟨_, _, _, _, h6⟩ := makeGraph_ok_spec edges g h
  have hadj : adjOf g u = (edges.filter (fun e => e.1 = u ∧ e.2 ≠ none)).map Prod.snd :=
    h6 u hu
  refine ⟨hadj, ?_⟩
  intro hk
  obtain ⟨a, ha⟩ := Option.isSome_iff_exists.1 ((lookup_isSome_iff g u).2 hk)
  rw [← hadj, ha]
  simp [adjOf, ha]

theorem makeGraph_adjacency_witness :
    makeGraph [((some 0 : Vertex Nat), (some 1 : Vertex Nat)), (some 0, none), (some 0, some 2),
        (none, some 0), (some 0, some 1)]
      = .ok [(some 0, [some 1, some 2, some 1])] ∧
    (adjOf [((some 0 : Vertex Nat), [(some 1 : Vertex Nat), some 2, some 1])] (some 0)
      = ([((some 0 : Vertex Nat), (some 1 : Vertex Nat)), (some 0, none), (some 0, some 2),
          (none, some 0), (some 0, some 1)].filter
            (fun e => e.1 = some 0 ∧ e.2 ≠ none)).map Prod.snd ∧
      ((some 0 : Vertex Nat) ∈ keys [((some 0 : Vertex Nat),
          [(some 1 : Vertex Nat), some 2, some 1])] →
        lookup [((some 0 : Vertex Nat), [(some 1 : Vertex Nat), some 2, some 1])] (some 0)
          = some (([((some 0 : Vertex Nat), (some 1 : Vertex Nat)), (some 0, none),
            (some 0, some 2), (none, some 0), (some 0, some 1)].filter
              (fun e => e.1 = some 0 ∧ e.2 ≠ none)).map Prod.snd))) :=
  ⟨by rfl, makeGraph_adjacency
    [((some 0 : Vertex Nat), (some 1 : Vertex Nat)), (some 0, none), (some 0, some 2),
      (none, some 0), (some 0, some 1)]
    [(some 0, [some 1, some 2, some 1])] (by rfl) (some 0) (by decide)⟩

/-- C13: when `Toposort` returns the cycle error, the sort loop has ended in a state
`st`, and the vertices reported are exactly the keys of `inDegree` whose count is not
0, exactly the vertices of the input that are not in `sorted`, and exactly the vertices
that lie on a cycle or are reachable from a vertex on a cycle. -/
theorem toposort_cycle_nodes {α : Type} [DecidableEq α] (o : MapOrders α)
    (edges : List (Edge α)) (nodes : List (Vertex α))
    (h : Toposort o edges = some (.error (.cycle nodes))) :
    ∃ g st, makeGraph edges = .ok g ∧
      sortLoop g (keys (inDegreeTable o g)).length (initState o g) = some st ∧
      (∀ v, v ∈ nodes ↔ (v ∈ keys st.inDegree ∧ degOf st.inDegree v ≠ 0)) ∧
      (∀ v, v ∈ nodes ↔ (IsVertex edges v ∧ v ∉ st.sorted)) ∧
      (∀ v, v ∈ nodes ↔ Blocked edges v) := by
  cases hg : makeGraph edges with
  | error err =>
    rcases makeGraph_spec edges with ⟨_, h2⟩ | ⟨_, g', h2, _⟩
    · have : Toposort o edges = some (.error .sameNodes) := by simp [Toposort, h2]
      rw [this] at h
      cases h
    · rw [h2] at hg
      cases hg
  | ok g =>
    obtain ⟨st, s1, _, _, _, s5, s6, s7, s8, s9⟩ := sortLoop_run_spec o edges g hg
    have hnodes : nodes = cycleNodes (o.rangeCycle.iter st.inDegree) := by
      rw [s9] at h
      by_cases hlt : st.sorted.length < g.length
      · rw [if_pos hlt] at h
        cases h
        rfl
      · rw [if_neg hlt] at h
        cases h
    have hA : ∀ v, v ∈ nodes ↔ (v ∈ keys st.inDegree ∧ degOf st.inDegree v ≠ 0) := by
      intro v
      rw [hnodes]
      exact mem_cycleNodes o.rangeCycle st.inDegree s5 v
    have hB : ∀ v, v ∈ nodes ↔ (IsVertex edges v ∧ v ∉ st.sorted) := by
      intro v
      rw [hA v, s7 v, ← s6 v]
      tauto
    refine ⟨g, st, rfl, s1, hA, hB, ?_⟩
    intro v
    rw [hB v, s8.mem v]
    constructor
    · rintro ⟨h1, h2⟩
      by_contra hb
      exact h2 ⟨h1, hb⟩
    · intro hb
      exact ⟨isVertex_of_blocked edges v hb, fun h2 => h2.2 hb⟩

theorem toposort_cycle_nodes_witness :
    Toposort (MapOrders.id Nat)
        [(some 1, some 3), (some 3, some 4), (some 0, some 1), (some 0, some 2),
          (some 2, some 3), (some 5, some 2), (some 5, some 4), (some 3, some 5)]
      = some (.error (.cycle [some 3, some 2, some 5, some 4])) ∧
    ∃ g st, makeGraph [((some 1 : Vertex Nat), (some 3 : Vertex Nat)), (some 3, some 4),
          (some 0, some 1), (some 0, some 2), (some 2, some 3), (some 5, some 2),
          (some 5, some 4), (some 3, some 5)] = .ok g ∧
      sortLoop g (keys (inDegreeTable (MapOrders.id Nat) g)).length
        (initState (MapOrders.id Nat) g) = some st ∧
      (∀ v, v ∈ [(some 3 : Vertex Nat), some 2, some 5, some 4] ↔
        (v ∈ keys st.inDegree ∧ degOf st.inDegree v ≠ 0)) ∧
      (∀ v, v ∈ [(some 3 : Vertex Nat), some 2, some 5, some 4] ↔
        (IsVertex [((some 1 : Vertex Nat), (some 3 : Vertex Nat)), (some 3, some 4),
          (some 0, some 1), (some 0, some 2), (some 2, some 3), (some 5, some 2),
          (some 5, some 4), (some 3, some 5)] v ∧ v ∉ st.sorted)) ∧
      (∀ v, v ∈ [(some 3 : Vertex Nat), some 2, some 5, some 4] ↔
        Blocked [((some 1 : Vertex Nat), (some 3 : Vertex Nat)), (some 3, some 4),
          (some 0, some 1), (some 0, some 2), (some 2, some 3), (some 5, some 2),
          (some 5, some 4), (some 3, some 5)] v) :=
  ⟨by rfl, toposort_cycle_nodes (MapOrders.id Nat)
    [(some 1, some 3), (some 3, some 4), (some 0, some 1), (some 0, some 2),
      (some 2, some 3), (some 5, some 2), (some 5, some 4), (some 3, some 5)]
    [some 3, some 2, some 5, some 4] (by rfl)⟩

/-- C14 (as stated): the inputs `{0, 0}` and `{1, 1}`, with self-loops on different
vertices, get the same error from `makeGraph` and from `Toposort`. -/
theorem self_loop_errors_equal :
    makeGraph [((some 0 : Vertex Nat), (some 0 : Vertex Nat))]
      = makeGraph [((some 1 : Vertex Nat), (some 1 : Vertex Nat))] ∧
    Toposort (MapOrders.id Nat) [(some 0, some 0)]
      = Toposort (MapOrders.id Nat) [(some 1, some 1)] ∧
    Toposort (MapOrders.id Nat) [(some 0, some 0)] = some (.error .sameNodes) :=
  ⟨by rfl, by rfl, by rfl⟩

/-- C14 (amended): when an edge `{X, X}` with `X` non-nil makes the construction of the
graph fail, `makeGraph` and `Toposort` return the one fixed error
`nodes in edge cannot be the same`, which does not name `X`: an input with a self-loop
on any other vertex `Y` gets the same error. -/
theorem self_loop_error_fixed {α : Type} [DecidableEq α] (o o' : MapOrders α)
    (edges edges' : List (Edge α)) (X Y : α) (hX : (some X, some X) ∈ edges)
    (hY : (some Y, some Y) ∈ edges') :
    makeGraph edges = .error .sameNodes ∧ Toposort o edges = some (.error .sameNodes) ∧
    makeGraph edges' = makeGraph edges ∧ Toposort o' edges' = Toposort o edges := by
  have key : ∀ (o1 : MapOrders α) (es : List (Edge α)) (Z : α), (some Z, some Z) ∈ es →
      makeGraph es = .error .sameNodes ∧ Toposort o1 es = some (.error .sameNodes) := by
    intro o1 es Z hZ
    rcases makeGraph_spec es with ⟨_, h2⟩ | ⟨h1, _⟩
    · exact ⟨h2, by simp [Toposort, h2]⟩
    · exact absurd rfl (h1 _ hZ)
  obtain ⟨a1, a2⟩ := key o edges X hX
  obtain ⟨b1, b2⟩ := key o' edges' Y hY
  exact ⟨a1, a2, b1.trans a1.symm, b2.trans a2.symm⟩

theorem self_loop_error_fixed_witness :
    makeGraph [((some 0 : Vertex Nat), (some 1 : Vertex Nat)), (some 7, some 7)]
      = .error .sameNodes ∧
    Toposort (MapOrders.id Nat) [(some 0, some 1), (some 7, some 7)]
      = some (.error .sameNodes) ∧
    makeGraph [((some 9 : Vertex Nat), (some 9 : Vertex Nat))]
      = makeGraph [((some 0 : Vertex Nat), (some 1 : Vertex Nat)), (some 7, some 7)] ∧
    Toposort (MapOrders.rev Nat) [(some 9, some 9)]
      = Toposort (MapOrders.id Nat) [(some 0, some 1), (some 7, some 7)] :=
  self_loop_error_fixed (MapOrders.id Nat) (MapOrders.rev Nat)
    [(some 0, some 1), (some 7, some 7)] [(some 9, some 9)] 7 9 (by decide) (by decide)

/-- C15: on the star-shaped edge list `{A, c1}, ..., {A, cn}` (`n ≥ 1`) with `c1 .. cn`
pairwise distinct and different from `A`, `Toposort` returns exactly
`[A, cn, ..., c1]`, whatever the iteration orders: the ready list is a stack. -/
theorem toposort_star {α : Type} [DecidableEq α] (o : MapOrders α) (A : α) (cs : List α)
    (hne : cs ≠ []) (hnd : cs.Nodup) (hA : A ∉ cs) :
    Toposort o (starEdges A cs) = some (.ok (some A :: (cs.map some).reverse)) := by
  have hg := makeGraph_star_of_ne_nil A cs hne hA
  have htab := inDegreeTable_star o A cs hnd hA
  have hnd' : (cs.map some).Nodup := hnd.map (Option.some_injective α)
  have hinit : initState o [(some A, cs.map some)]
      = ⟨[some A], [], inDegreeTable o [(some A, cs.map some)]⟩ := by
    have hready := readyList_star o.rangeReady A (cs.map some)
    rw [← htab] at hready
    simp only [initState, hready]
  have hadjA : adjOf [((some A : Vertex α), cs.map some)] (some A) = cs.map some := by
    simp [adjOf, lookup]
  have hadj : ∀ u ∈ cs.map some, adjOf [((some A : Vertex α), cs.map some)] u = [] := by
    intro u hu
    obtain ⟨x, hx, rfl⟩ := List.mem_map.1 hu
    have hne' : ¬ A = x := fun h => hA (h ▸ hx)
    simp [adjOf, lookup, hne']
  have hdeg : ∀ v ∈ cs.map some, degOf (inDegreeTable o [(some A, cs.map some)]) v = 1 := by
    intro v hv
    have hndk : (keys (inDegreeTable o [(some A, cs.map some)])).Nodup :=
      (inDegreeTable_spec o _).1
    have hm : (v, (1 : Int)) ∈ inDegreeTable o [(some A, cs.map some)] := by
      rw [htab]
      exact List.mem_cons_of_mem _ (List.mem_map.2 ⟨v, hv, rfl⟩)
    simp only [degOf, (mem_iff_lookup _ hndk v 1).1 hm, Option.getD_some]
  have hlen : (keys (inDegreeTable o [(some A, cs.map some)])).length
      = (cs.map some).length + 1 := by
    rw [htab]
    simp [keys]
  have hrun := sortLoop_star [((some A : Vertex α), cs.map some)] (some A) (cs.map some)
    (inDegreeTable o [(some A, cs.map some)]) hadjA hadj hnd' hdeg
  simp only [Toposort, hg, hlen, hinit, hrun]
  simp

theorem toposort_star_witness :
    Toposort (MapOrders.rev Nat)
        [(some 0, some 1), (some 0, some 2), (some 0, some 3), (some 0, some 4),
          (some 0, some 5)]
      = some (.ok [some 0, some 5, some 4, some 3, some 2, some 1]) :=
  toposort_star (MapOrders.rev Nat) 0 [1, 2, 3, 4, 5] (by decide) (by decide) (by decide)

/-- C16: on an edge list in which every destination of an edge between non-nil
vertices is also the first side of an edge or the non-nil side of a one-nil edge,
`Toposort` returns an error if and only if the input has an edge with two equal sides
or its directed graph has a cycle. -/
theorem toposort_error_iff {α : Type} [DecidableEq α] (o : MapOrders α)
    (edges : List (Edge α))
    (hkeys : ∀ e ∈ edges, e.1 ≠ none → e.2 ≠ none →
      ∃ e' ∈ edges, e'.1 = e.2 ∨ (e'.1 = none ∧ e'.2 = e.2)) :
    (∃ err, Toposort o edges = some (.error err)) ↔
      ((∃ e ∈ edges, e.1 = e.2) ∨ HasCycle edges) := by
  rcases Toposort_spec o edges with ⟨a1, a2⟩ | ⟨a1, g, st, _, a3, a4, a5, a6, _, a8, a9⟩
  · exact ⟨fun _ => Or.inl a1, fun _ => ⟨_, a2⟩⟩
  · have hsrc : ∀ v, IsVertex edges v → IsSource edges v := by
      rintro v ⟨hv, ⟨x, y⟩, he, h | h⟩
      · exact ⟨hv, (x, y), he, Or.inl h⟩
      · simp only at h
        subst h
        by_cases hx : x = none
        · exact ⟨hv, (x, y), he, Or.inr ⟨hx, rfl⟩⟩
        · obtain ⟨e', he', h'⟩ := hkeys (x, y) he hx hv
          exact ⟨hv, e', he', h'⟩
    have hlen : g.length = (keys st.inDegree).length := by
      have : (keys g).length = (keys st.inDegree).length := by
        apply List.Perm.length_eq
        apply perm_of_same_mem a3 a5
        intro v
        rw [a4 v, a6 v]
        constructor
        · rintro ⟨h1, e, h2, h3 | ⟨_, h3⟩⟩
          · exact ⟨h1, e, h2, Or.inl h3⟩
          · exact ⟨h1, e, h2, Or.inr h3⟩
        · exact hsrc v
      simpa [keys] using this
    have hsub : st.sorted ⊆ keys st.inDegree := by
      intro v hv
      exact (a6 v).2 ((a8.mem v).1 hv).1
    have hcyc : st.sorted.length < g.length ↔ HasCycle edges := by
      rw [hlen]
      constructor
      · intro hlt
        by_contra hno
        have hall : keys st.inDegree ⊆ st.sorted := by
          intro v hv
          exact (a8.mem v).2 ⟨(a6 v).1 hv, not_blocked_of_acyclic edges hno v⟩
        have := (List.Nodup.subperm a5 hall).length_le
        omega
      · rintro ⟨c, hc⟩
        by_contra hge
        have hb : Blocked edges c := ⟨c, hc, Relation.ReflTransGen.refl⟩
        have hp := (List.Nodup.subperm a8.nodup hsub).perm_of_length_le (by omega)
        have hcU : c ∈ keys st.inDegree := (a6 c).2 (isVertex_of_blocked edges c hb)
        exact ((a8.mem c).1 (hp.mem_iff.2 hcU)).2 hb
    rw [a9]
    constructor
    · rintro ⟨err, herr⟩
      by_cases hlt : st.sorted.length < g.length
      · exact Or.inr (hcyc.1 hlt)
      · rw [if_neg hlt] at herr
        cases herr
    · rintro (⟨e, he, hee⟩ | hc)
      · exact absurd hee (a1 e he)
      · rw [if_pos (hcyc.2 hc)]
        exact ⟨_, rfl⟩

theorem toposort_error_iff_witness :
    (∀ e ∈ [((some 0 : Vertex Nat), (some 1 : Vertex Nat)), (some 1, some 2), (some 2, some 1),
        (none, some 3)], e.1 ≠ none → e.2 ≠ none →
      ∃ e' ∈ [((some 0 : Vertex Nat), (some 1 : Vertex Nat)), (some 1, some 2),
        (some 2, some 1), (none, some 3)], e'.1 = e.2 ∨ (e'.1 = none ∧ e'.2 = e.2)) ∧
    ((∃ err, Toposort (MapOrders.id Nat)
        [(some 0, some 1), (some 1, some 2), (some 2, some 1), (none, some 3)]
          = some (.error err)) ↔
      ((∃ e ∈ [((some 0 : Vertex Nat), (some 1 : Vertex Nat)), (some 1, some 2),
          (some 2, some 1), (none, some 3)], e.1 = e.2) ∨
        HasCycle [((some 0 : Vertex Nat), (some 1 : Vertex Nat)), (some 1, some 2),
          (some 2, some 1), (none, some 3)])) :=
  ⟨by decide, toposort_error_iff (MapOrders.id Nat)
    [(some 0, some 1), (some 1, some 2), (some 2, some 1), (none, some 3)] (by decide)⟩

/-- C17: a list returned by `Toposort` has no duplicates and is closed under
predecessors: for every input edge `(u, v)` with both sides non-nil, if `v` is in the
list then so is `u`. This holds also when the input has a cycle that the length check
did not report. -/
theorem toposort_closed_nodup {α : Type} [DecidableEq α] (o : MapOrders α)
    (edges : List (Edge α)) (l : List (Vertex α)) (h : Toposort o edges = some (.ok l)) :
    l.Nodup ∧ ∀ u v, (u, v) ∈ edges → u ≠ none → v ≠ none → v ∈ l → u ∈ l := by
  obtain ⟨hs, _⟩ := Toposort_ok_spec o edges l h
  exact ⟨hs.nodup, fun u v he hu hv hvl => hs.closed u v ⟨he, hu, hv⟩ hvl⟩

theorem toposort_closed_nodup_witness :
    Toposort (MapOrders.id Nat)
        [(some 0, some 1), (some 1, some 0), (some 2, some 3), (some 2, some 4),
          (some 2, some 5)]
      = some (.ok [some 2, some 5, some 4, some 3]) ∧
    ([(some 2 : Vertex Nat), some 5, some 4, some 3].Nodup ∧
      ∀ u v, (u, v) ∈ [((some 0 : Vertex Nat), (some 1 : Vertex Nat)), (some 1, some 0),
          (some 2, some 3), (some 2, some 4), (some 2, some 5)] → u ≠ none → v ≠ none →
        v ∈ [(some 2 : Vertex Nat), some 5, some 4, some 3] →
        u ∈ [(some 2 : Vertex Nat), some 5, some 4, some 3]) :=
  ⟨by rfl, toposort_closed_nodup (MapOrders.id Nat)
    [(some 0, some 1), (some 1, some 0), (some 2, some 3), (some 2, some 4), (some 2, some 5)]
    [some 2, some 5, some 4, some 3] (by rfl)⟩

/-- C18: `Toposort` returns on every edge list. When `makeGraph` succeeds with `g`, the
keys of `inDegree` are the distinct vertices of the input, and the sort loop exits
(`next` empty) within one iteration per key, with at most that many vertices sorted.
After any number `k` of iterations no vertex occurs twice in `sorted` followed by
`next` (so no vertex is ever appended to `next` twice) and no count is negative; the
same holds inside the inner loop, after any part `done` of the adjacency list of the
vertex `u` just popped. -/
theorem sort_loop_terminates {α : Type} [DecidableEq α] (o : MapOrders α)
    (edges : List (Edge α)) :
    (∃ r, Toposort o edges = some r) ∧
    ∀ g, makeGraph edges = .ok g →
      (keys (inDegreeTable o g)).Nodup ∧
      (∀ v, v ∈ keys (inDegreeTable o g) ↔ IsVertex edges v) ∧
      (∃ st, sortLoop g (keys (inDegreeTable o g)).length (initState o g) = some st ∧
        st.next = [] ∧ st.sorted.length ≤ (keys (inDegreeTable o g)).length) ∧
      (sortIter g (keys (inDegreeTable o g)).length (initState o g)).next = [] ∧
      ∀ k : Nat,
        ((sortIter g k (initState o g)).sorted ++ (sortIter g k (initState o g)).next).Nodup ∧
        (∀ v, 0 ≤ degOf (sortIter g k (initState o g)).inDegree v) ∧
        ∀ u, (sortIter g k (initState o g)).next.getLast? = some u →
          ∀ done rest, adjOf g u = done ++ rest →
            ((sortIter g k (initState o g)).sorted ++ [u] ++
              (relax done (sortIter g k (initState o g)).next.dropLast
                (sortIter g k (initState o g)).inDegree).1).Nodup ∧
            ∀ v, 0 ≤ degOf (relax done (sortIter g k (initState o g)).next.dropLast
              (sortIter g k (initState o g)).inDegree).2 v := by
  constructor
  · rcases Toposort_spec o edges with ⟨_, a2⟩ | ⟨_, g, st, _, _, _, _, _, _, _, a9⟩
    · exact ⟨_, a2⟩
    · rw [a9]
      by_cases hlt : st.sorted.length < g.length
      · exact ⟨_, if_pos hlt⟩
      · exact ⟨_, if_neg hlt⟩
  · intro g hg
    obtain ⟨hok, st, s1, s2, s3, s4, _⟩ := sortLoop_run o edges g hg
    refine ⟨(inDegreeTable_spec o g).1, table_keys_iff o edges g hg, ⟨st, s1, s4, ?_⟩, ?_, ?_⟩
    · have hsub : st.sorted ++ st.next ⊆ keys (inDegreeTable o g) :=
        fun w hw => ((s3.zero w).1 hw).1
      have := (List.Nodup.subperm s3.nodup hsub).length_le
      simp only [List.length_append] at this
      omega
    · rw [← s2]
      exact s4
    · intro k
      have hinv := loopInv_sortIter g _ hok k (initState o g) (loopInv_init o g)
      refine ⟨hinv.nodup, ?_, ?_⟩
      · intro v
        rw [hinv.deg v]
        exact Int.ofNat_nonneg _
      · intro u hu done rest hsplit
        obtain ⟨hr, hcount⟩ := relaxInv_prefix g _ hok _ hinv u hu done rest hsplit
        refine ⟨hr.nodup, ?_⟩
        intro v
        rw [hr.deg v]
        have := hcount v
        omega

theorem sort_loop_terminates_witness :
    (∃ r, Toposort (MapOrders.id Nat)
        [(some 0, some 1), (some 1, some 2), (some 2, some 1), (some 0, some 3)] = some r) ∧
    makeGraph [((some 0 : Vertex Nat), (some 1 : Vertex Nat)), (some 1, some 2), (some 2, some 1),
        (some 0, some 3)]
      = .ok [(some 0, [some 1, some 3]), (some 1, [some 2]), (some 2, [some 1])] ∧
    (sortIter [((some 0 : Vertex Nat), [(some 1 : Vertex Nat), some 3]), (some 1, [some 2]),
        (some 2, [some 1])]
      (keys (inDegreeTable (MapOrders.id Nat) [((some 0 : Vertex Nat),
        [(some 1 : Vertex Nat), some 3]), (some 1, [some 2]), (some 2, [some 1])])).length
      (initState (MapOrders.id Nat) [((some 0 : Vertex Nat), [(some 1 : Vertex Nat), some 3]),
        (some 1, [some 2]), (some 2, [some 1])])).next = [] ∧
    sortIter [((some 0 : Vertex Nat), [(some 1 : Vertex Nat), some 3]), (some 1, [some 2]),
        (some 2, [some 1])] 4
      (initState (MapOrders.id Nat) [((some 0 : Vertex Nat), [(some 1 : Vertex Nat), some 3]),
        (some 1, [some 2]), (some 2, [some 1])])
      = ⟨[], [some 0, some 3], [(some 0, 0), (some 1, 1), (some 2, 1), (some 3, 0)]⟩ := by
  have h := sort_loop_terminates (MapOrders.id Nat)
    [(some 0, some 1), (some 1, some 2), (some 2, some 1), (some 0, some 3)]
  exact ⟨h.1, by rfl, (h.2 _ (by rfl)).2.2.2.1, by rfl⟩

/-- C19: on an edge list that contains an edge with both sides nil, `makeGraph` and
`Toposort` return the error that a self-loop `{X, X}` gets, and no graph: the edge is
not ignored. Whenever `makeGraph` does return a graph, nil is neither a key nor a
destination in it. -/
theorem nil_nil_edge_rejected {α : Type} [DecidableEq α] (o : MapOrders α)
    (edges : List (Edge α)) (h : ((none, none) : Edge α) ∈ edges) :
    makeGraph edges = .error .sameNodes ∧ Toposort o edges = some (.error .sameNodes) ∧
    (∀ X : α, makeGraph edges = makeGraph [((some X : Vertex α), (some X : Vertex α))]) ∧
    ∀ (edges' : List (Edge α)) (g : GoMap (Vertex α) (List (Vertex α))),
      makeGraph edges' = .ok g → none ∉ keys g ∧ ∀ u, none ∉ adjOf g u := by
  have h1 : makeGraph edges = .error .sameNodes := by
    rcases makeGraph_spec edges with ⟨_, h2⟩ | ⟨h1, _⟩
    · exact h2
    · exact absurd rfl (h1 _ h)
  refine ⟨h1, by simp [Toposort, h1], ?_, ?_⟩
  · intro X
    rw [h1]
    simp [makeGraph, makeGraphLoop]
  · intro edges' g hg
    obtain ⟨_, _, h4, _, h6⟩ := makeGraph_ok_spec edges' g hg
    refine ⟨h4, ?_⟩
    intro u hu
    exact ((mem_adjOf_iff edges' g h4 h6 u none).1 hu).2.2 rfl

theorem nil_nil_edge_rejected_witness :
    ((none, none) : Edge Nat) ∈ [((some 0 : Vertex Nat), (some 1 : Vertex Nat)), (none, none)] ∧
    makeGraph [((some 0 : Vertex Nat), (some 1 : Vertex Nat)), (none, none)]
      = .error .sameNodes ∧
    Toposort (MapOrders.id Nat) [(some 0, some 1), (none, none)]
      = some (.error .sameNodes) ∧
    (∀ X : Nat, makeGraph [((some 0 : Vertex Nat), (some 1 : Vertex Nat)), (none, none)]
      = makeGraph [((some X : Vertex Nat), (some X : Vertex Nat))]) ∧
    ∀ (edges' : List (Edge Nat)) (g : GoMap (Vertex Nat) (List (Vertex Nat))),
      makeGraph edges' = .ok g → none ∉ keys g ∧ ∀ u, none ∉ adjOf g u :=
  ⟨by decide, nil_nil_edge_rejected (MapOrders.id Nat)
    [(some 0, some 1), (none, none)] (by decide)⟩

/-- C20: before the sort loop, for every vertex `v` of the input (also one that occurs
only as a destination) the table `inDegree` holds, under the key `v`, the number of
input edges with both sides non-nil whose second side is `v`, counted with
multiplicity; this is 0 for a vertex that is never such a destination. -/
theorem inDegree_counts {α : Type} [DecidableEq α] (o : MapOrders α) (edges : List (Edge α))
    (g : GoMap (Vertex α) (List (Vertex α))) (h : makeGraph edges = .ok g) (v : Vertex α)
    (hv : v ≠ none ∧ ∃ e ∈ edges, e.1 = v ∨ e.2 = v) :
    lookup (initState o g).inDegree v
      = some ((edges.countP (fun e => e.1 ≠ none ∧ e.2 ≠ none ∧ e.2 = v) : Nat) : Int) ∧
    ((∀ e ∈ edges, e.1 ≠ none → e.2 ≠ v) → lookup (initState o g).inDegree v = some 0) := by
  have h1 := inDegreeTable_lookup o edges g h v hv
  refine ⟨h1, ?_⟩
  intro hno
  have h0 : edges.countP (fun e => e.1 ≠ none ∧ e.2 ≠ none ∧ e.2 = v) = 0 := by
    apply List.countP_eq_zero.2
    intro e he
    simp only [decide_eq_true_eq, not_and]
    intro h1 _ h3
    exact hno e he h1 h3
  show lookup (inDegreeTable o g) v = some 0
  rw [h1, h0]
  rfl

theorem inDegree_counts_witness :
    makeGraph [((some 0 : Vertex Nat), (some 1 : Vertex Nat)), (some 0, some 1), (some 2, some 1),
        (none, some 1), (some 3, none)]
      = .ok [(some 0, [some 1, some 1]), (some 2, [some 1]), (some 1, []), (some 3, [])] ∧
    (lookup (initState (MapOrders.rev Nat) [((some 0 : Vertex Nat),
          [(some 1 : Vertex Nat), some 1]), (some 2, [some 1]), (some 1, []),
          (some 3, [])]).inDegree (some 1)
      = some (([((some 0 : Vertex Nat), (some 1 : Vertex Nat)), (some 0, some 1),
          (some 2, some 1), (none, some 1), (some 3, none)].countP
            (fun e => e.1 ≠ none ∧ e.2 ≠ none ∧ e.2 = some 1) : Nat) : Int) ∧
      ((∀ e ∈ [((some 0 : Vertex Nat), (some 1 : Vertex Nat)), (some 0, some 1),
          (some 2, some 1), (none, some 1), (some 3, none)], e.1 ≠ none → e.2 ≠ some 1) →
        lookup (initState (MapOrders.rev Nat) [((some 0 : Vertex Nat),
          [(some 1 : Vertex Nat), some 1]), (some 2, [some 1]), (some 1, []),
          (some 3, [])]).inDegree (some 1) = some 0)) :=
  ⟨by rfl, inDegree_counts (MapOrders.rev Nat)
    [((some 0 : Vertex Nat), (some 1 : Vertex Nat)), (some 0, some 1), (some 2, some 1),
      (none, some 1), (some 3, none)]
    [(some 0, [some 1, some 1]), (some 2, [some 1]), (some 1, []), (some 3, [])] (by rfl)
    (some 1) ⟨by decide, (some 0, some 1), by decide, Or.inr rfl⟩⟩

end GoToposort
